import Mathlib

/-!
MediaTek clock multiplexer with update register (drivers/clk/mediatek/clk-mux.c).

A shallow embedding of the five clock operations of the driver
(`mtk_mux_upd_enable`, `mtk_mux_upd_disable`, `mtk_mux_upd_is_enabled`,
`mtk_mux_upd_get_parent`, `mtk_mux_upd_set_parent`), of the two operation
tables and of the registration function, followed by the properties proved
about them.

Conventions of the embedding:

* a `u32` is a natural number below `2 ^ 32`; every load and store reduces
  modulo `2 ^ 32`, and so does every 32-bit left shift;
* the `s8` fields of the instance are integers; a shift whose count is
  negative has no value in C, the embedding gives it none (`Option.none`);
* a 32-bit shift by a count of 32 or more is undefined in C as well; the
  compiled shift uses the low five bits of the count, and the embedding
  follows it, so that `GENMASK` at a width of 32 is 0;
* the register region is a function from byte offsets (relative to `base`)
  to cell contents; every operation returns its result, the region after the
  call and the ordered list of loads and stores it issued.
-/

namespace ClkMux

/-! ## Register region -/

/-- One access to the memory-mapped region, by byte offset from `base`. -/
inductive Access where
  | read (ofs : Nat)
  | write (ofs : Nat) (val : Nat)
  deriving DecidableEq, Repr

/-- The register region: the content of the cell at each byte offset. -/
abbrev RegFile := Nat → Nat

/-- The macro `clk_readl(addr)`, that is `readl(addr)`: a 32-bit load. -/
def clk_readl (regs : RegFile) (ofs : Nat) : Nat :=
  regs ofs % 2 ^ 32

/-- The macro `clk_writel(val, addr)`, that is `writel(val, addr); wmb();`:
a 32-bit store, complete before the next access. -/
def clk_writel (val : Nat) (ofs : Nat) (regs : RegFile) : RegFile :=
  fun a => if a = ofs then val % 2 ^ 32 else regs a

/-- What a call leaves behind: the returned value, the register region after
the call, and the accesses the call issued, in program order. -/
structure Outcome (α : Type) where
  ret : α
  regs : RegFile
  trace : List Access

/-- The stores among a list of accesses, in order. -/
def writes : List Access → List (Nat × Nat)
  | [] => []
  | Access.read _ :: t => writes t
  | Access.write o v :: t => (o, v) :: writes t

/-! ## Machine arithmetic -/

/-- The count of a C shift expression: a non-negative `int` is a count, a
negative one is not. -/
def shiftCount (n : Int) : Option Nat :=
  if 0 ≤ n then some n.toNat else none

/-- The expression `x << n` on a 32-bit operand. For a count of 0..31 it is
`x * 2 ^ n` reduced modulo `2 ^ 32` (bits moved past bit 31 are lost). For a
count of 32 or more C leaves the shift undefined; the compiled shift uses the
low five bits of the count, and so does the embedding. -/
def shl32 (x : Nat) (n : Int) : Option Nat :=
  (shiftCount n).map fun k => (x <<< (k % 32)) % 2 ^ 32

/-- The expression `x >> n` on a `u32` operand; a count of 32 or more is
taken modulo 32, as by the compiled shift. -/
def shr32 (x : Nat) (n : Int) : Option Nat :=
  (shiftCount n).map fun k => x >>> (k % 32)

/-- The expression `~x` seen in the low 32 bits. -/
def not32 (x : Nat) : Nat :=
  2 ^ 32 - 1 - x % 2 ^ 32

/-- Modelled from the spec: the macro `BIT` of `linux/bitops.h`, which is not
among the sources; the spec's "single set-bit" value `1 << bit`:
`BIT(nr)` is `1UL << (nr)`. Its uses below keep the low 32 bits. -/
def BIT (nr : Int) : Option Nat :=
  (shiftCount nr).map fun k => 1 <<< k

/-- The macro `GENMASK(h, l)` of the source:
`(((U32_C(1) << ((h) - (l) + 1)) - 1) << (l))`, in 32-bit unsigned arithmetic.
For `h - l + 1` in 0..31 it is the mask of that many bits at bit `l`; at
`h - l + 1 = 32` the first shift is a shift by 32 and the mask comes out 0. -/
def GENMASK (h l : Int) : Option Nat := do
  let one ← shl32 1 (h - l + 1)
  shl32 ((one + 2 ^ 32 - 1) % 2 ^ 32) l

/-- Modelled from the spec: the errno constant `EINVAL`, whose header is not
among the sources (the spec's InvalidArgument / OutOfRange code); its value
is 22. -/
def EINVAL : Int := 22

/-- Conversion of an `int` to the `u8` return type. -/
def toU8 (x : Int) : Nat :=
  (x % 2 ^ 8).toNat

/-! ## Data model -/

/-- The part of `struct clk_hw` the driver looks at: the number of parents
that `__clk_get_num_parents(hw->clk)` returns. -/
structure clk_hw where
  num_parents : Nat
  deriving DecidableEq, Repr

/-- The record `struct mtk_mux_upd_data` (`base` is the origin of the offsets). -/
structure mtk_mux_upd_data where
  hw : clk_hw
  mux_ofs : Nat
  upd_ofs : Nat
  mux_shift : Int
  mux_width : Int
  gate_shift : Int
  upd_shift : Int
  deriving DecidableEq, Repr

/-! ## The five operations -/

/-- The block that ends the three mutating operations, the same text in each:
`if (val != orig) { clk_writel(val, base + mux_ofs);
  if (upd_shift > 0) clk_writel(BIT(upd_shift), base + upd_ofs); }`.
Returns the region after the block and the stores issued. -/
def write_back (mux : mtk_mux_upd_data) (regs : RegFile) (orig val : Nat) :
    Option (RegFile × List Access) :=
  if val ≠ orig then
    let regs1 := clk_writel val mux.mux_ofs regs
    if mux.upd_shift > 0 then do
      let pulse ← BIT mux.upd_shift
      pure (clk_writel pulse mux.upd_ofs regs1,
        [Access.write mux.mux_ofs (val % 2 ^ 32), Access.write mux.upd_ofs (pulse % 2 ^ 32)])
    else
      pure (regs1, [Access.write mux.mux_ofs (val % 2 ^ 32)])
  else
    pure (regs, [])

/-- The function `mtk_mux_upd_enable`: clear the gate bit. -/
def mtk_mux_upd_enable (mux : mtk_mux_upd_data) (regs : RegFile) : Option (Outcome Int) := do
  let orig := clk_readl regs mux.mux_ofs
  let gate ← BIT mux.gate_shift
  let val := orig &&& not32 gate
  let (regs1, stores) ← write_back mux regs orig val
  pure { ret := 0, regs := regs1, trace := Access.read mux.mux_ofs :: stores }

/-- The function `mtk_mux_upd_disable`: set the gate bit. -/
def mtk_mux_upd_disable (mux : mtk_mux_upd_data) (regs : RegFile) : Option (Outcome Unit) := do
  let orig := clk_readl regs mux.mux_ofs
  let gate ← BIT mux.gate_shift
  let val := (orig ||| gate) % 2 ^ 32
  let (regs1, stores) ← write_back mux regs orig val
  pure { ret := (), regs := regs1, trace := Access.read mux.mux_ofs :: stores }

/-- The function `mtk_mux_upd_is_enabled`. -/
def mtk_mux_upd_is_enabled (mux : mtk_mux_upd_data) (regs : RegFile) : Option (Outcome Bool) :=
  if mux.gate_shift < 0 then
    pure { ret := true, regs := regs, trace := [] }
  else do
    let gate ← BIT mux.gate_shift
    pure { ret := decide (clk_readl regs mux.mux_ofs &&& gate = 0), regs := regs,
           trace := [Access.read mux.mux_ofs] }

/-- The function `mtk_mux_upd_get_parent`; the result is a `u8`. -/
def mtk_mux_upd_get_parent (mux : mtk_mux_upd_data) (regs : RegFile) : Option (Outcome Nat) := do
  let num_parents := mux.hw.num_parents
  let mask ← GENMASK (mux.mux_width - 1) 0
  let shifted ← shr32 (clk_readl regs mux.mux_ofs) mux.mux_shift
  let val := shifted &&& mask
  if val ≥ num_parents then
    pure { ret := toU8 (-EINVAL), regs := regs, trace := [Access.read mux.mux_ofs] }
  else
    pure { ret := val % 2 ^ 8, regs := regs, trace := [Access.read mux.mux_ofs] }

/-- The function `mtk_mux_upd_set_parent`; `index` is a `u8`. -/
def mtk_mux_upd_set_parent (mux : mtk_mux_upd_data) (index : Fin 256) (regs : RegFile) :
    Option (Outcome Int) := do
  let mask ← GENMASK (mux.mux_width - 1) 0
  let orig := clk_readl regs mux.mux_ofs
  let field ← shl32 mask mux.mux_shift
  let val := orig &&& not32 field
  let placed ← shl32 index.val mux.mux_shift
  let val := val ||| placed
  let (regs1, stores) ← write_back mux regs orig val
  pure { ret := 0, regs := regs1, trace := Access.read mux.mux_ofs :: stores }

/-! ## Operation tables and registration -/

/-- The members of `struct clk_ops` that the driver fills in; a member left
out of the initialiser is a null pointer (`none`). -/
structure clk_ops where
  enable : Option (mtk_mux_upd_data → RegFile → Option (Outcome Int))
  disable : Option (mtk_mux_upd_data → RegFile → Option (Outcome Unit))
  is_enabled : Option (mtk_mux_upd_data → RegFile → Option (Outcome Bool))
  get_parent : Option (mtk_mux_upd_data → RegFile → Option (Outcome Nat))
  set_parent : Option (mtk_mux_upd_data → Fin 256 → RegFile → Option (Outcome Int))

/-- The table `mtk_mux_upd_ops`, for a multiplexer without a gate. -/
def mtk_mux_upd_ops : clk_ops :=
  { enable := none
    disable := none
    is_enabled := some mtk_mux_upd_is_enabled
    get_parent := some mtk_mux_upd_get_parent
    set_parent := some mtk_mux_upd_set_parent }

/-- The table `mtk_mux_upd_gate_ops`, for a multiplexer with a gate. -/
def mtk_mux_upd_gate_ops : clk_ops :=
  { enable := some mtk_mux_upd_enable
    disable := some mtk_mux_upd_disable
    is_enabled := some mtk_mux_upd_is_enabled
    get_parent := some mtk_mux_upd_get_parent
    set_parent := some mtk_mux_upd_set_parent }

/-- The fields of the table entry `struct mtk_mux_upd` (declared in
`clk-mux.h`) that the registration reads. -/
structure mtk_mux_upd where
  id : Nat
  num_parents : Nat
  mux_ofs : Nat
  upd_ofs : Nat
  mux_shift : Int
  mux_width : Int
  gate_shift : Int
  upd_shift : Int
  deriving DecidableEq, Repr

/-- A registered clock: the operation table handed over in `init.ops` and the
instance record behind `hw`. -/
structure clk where
  ops : clk_ops
  data : mtk_mux_upd_data

/-- Why a registration failed: `kzalloc` returned no memory (the function
returns `ERR_PTR(-ENOMEM)`), or `clk_register` reported the error given. -/
inductive register_error where
  | enomem
  | clk_register (err : Int)
  deriving DecidableEq, Repr

/-- The function `mtk_clk_register_mux_upd`. The two calls into the kernel are
inputs: whether `kzalloc` returned memory, and the error `clk_register`
reported, if any. On success the clock carries the chosen table and the
instance record; `init.num_parents` is what `__clk_get_num_parents` reports
afterwards. -/
def mtk_clk_register_mux_upd (mu : mtk_mux_upd) (kzalloc_ok : Bool)
    (clk_register_err : Option Int) : Except register_error clk :=
  if !kzalloc_ok then
    Except.error register_error.enomem
  else
    let ops := if mu.gate_shift < 0 then mtk_mux_upd_ops else mtk_mux_upd_gate_ops
    let mux : mtk_mux_upd_data :=
      { hw := { num_parents := mu.num_parents }
        mux_ofs := mu.mux_ofs
        upd_ofs := mu.upd_ofs
        mux_shift := mu.mux_shift
        mux_width := mu.mux_width
        gate_shift := mu.gate_shift
        upd_shift := mu.upd_shift }
    match clk_register_err with
    | some e => Except.error (register_error.clk_register e)
    | none => Except.ok { ops := ops, data := mux }

/-- Modelled from the spec: the clock framework's call of the `enable`
operation of a registered clock (the framework, `drivers/clk/clk.c`, is not
among the sources). A table without `enable` makes the call "a no-op that
still reports success"; otherwise the table's function runs on the instance. -/
def clk_enable (c : clk) (regs : RegFile) : Option (Outcome Int) :=
  match c.ops.enable with
  | none => some { ret := 0, regs := regs, trace := [] }
  | some f => f c.data regs

/-- Modelled from the spec: the clock framework's call of the `disable`
operation of a registered clock (the framework is not among the sources). A
table without `disable` makes the call a no-op. -/
def clk_disable (c : clk) (regs : RegFile) : Option (Outcome Unit) :=
  match c.ops.disable with
  | none => some { ret := (), regs := regs, trace := [] }
  | some f => f c.data regs

/-! ## The operations as calls -/

/-- The five operations of the driver, as calls on one instance. -/
inductive mux_op where
  | enable
  | disable
  | is_enabled
  | get_parent
  | set_parent (index : Fin 256)
  deriving DecidableEq, Repr

/-- What a call does to the register region: the region after the call and
the accesses the call issued, in program order (the returned value is left
out). -/
def run_op (mux : mtk_mux_upd_data) (regs : RegFile) : mux_op → Option (RegFile × List Access)
  | mux_op.enable => (mtk_mux_upd_enable mux regs).map fun o => (o.regs, o.trace)
  | mux_op.disable => (mtk_mux_upd_disable mux regs).map fun o => (o.regs, o.trace)
  | mux_op.is_enabled => (mtk_mux_upd_is_enabled mux regs).map fun o => (o.regs, o.trace)
  | mux_op.get_parent => (mtk_mux_upd_get_parent mux regs).map fun o => (o.regs, o.trace)
  | mux_op.set_parent index =>
      (mtk_mux_upd_set_parent mux index regs).map fun o => (o.regs, o.trace)

/-! ## The instance of the spec's concrete scenario -/

/-- The instance of the spec's scenario: `selectShift=0, selectWidth=2,
gateBit=2, updateBit=0, numParents=3`, at the given register offsets. -/
def scenario_mux (mux_ofs upd_ofs : Nat) : mtk_mux_upd_data :=
  { hw := { num_parents := 3 }
    mux_ofs := mux_ofs
    upd_ofs := upd_ofs
    mux_shift := 0
    mux_width := 2
    gate_shift := 2
    upd_shift := 0 }

/-- An instance with 235 parents on an 8-bit select field, no gate, no update bit. -/
def wide_mux : mtk_mux_upd_data :=
  { hw := { num_parents := 235 }
    mux_ofs := 64
    upd_ofs := 4
    mux_shift := 0
    mux_width := 8
    gate_shift := -1
    upd_shift := -1 }

/-- An instance whose select field is the whole register: 200 parents, shift
0, width 32, no gate, no update bit. -/
def full_width_mux : mtk_mux_upd_data :=
  { hw := { num_parents := 200 }
    mux_ofs := 64
    upd_ofs := 4
    mux_shift := 0
    mux_width := 32
    gate_shift := -1
    upd_shift := -1 }

/-! ## Lemmas on the machine arithmetic and the register region -/

theorem shiftCount_natCast (k : Nat) : shiftCount (k : Int) = some k := by
  simp [shiftCount]

theorem BIT_natCast (k : Nat) : BIT (k : Int) = some (2 ^ k) := by
  simp [BIT, shiftCount_natCast, Nat.one_shiftLeft]

theorem shl32_eq (x k : Nat) : shl32 x (k : Int) = some ((x <<< (k % 32)) % 2 ^ 32) := by
  simp [shl32, shiftCount_natCast]

theorem shr32_eq (x k : Nat) : shr32 x (k : Int) = some (x >>> (k % 32)) := by
  simp [shr32, shiftCount_natCast]

theorem shl32_natCast (x k : Nat) (hk : k ≤ 31) :
    shl32 x (k : Int) = some ((x <<< k) % 2 ^ 32) := by
  rw [shl32_eq, Nat.mod_eq_of_lt (show k < 32 by omega)]

theorem shr32_natCast (x k : Nat) (hk : k ≤ 31) : shr32 x (k : Int) = some (x >>> k) := by
  rw [shr32_eq, Nat.mod_eq_of_lt (show k < 32 by omega)]

theorem shiftCount_neg {n : Int} (h : n < 0) : shiftCount n = none := by
  simp [shiftCount, h]

theorem GENMASK_natCast (w : Nat) (hw : w ≤ 31) : GENMASK ((w : Int) - 1) 0 = some (2 ^ w - 1) := by
  have e : (w : Int) - 1 - 0 + 1 = (w : Int) := by ring
  unfold GENMASK
  rw [e, shl32_natCast _ w hw]
  show shl32 _ ((0 : Nat) : Int) = _
  rw [shl32_natCast _ 0 (by omega), Nat.one_shiftLeft, Nat.shiftLeft_zero, Nat.mod_mod]
  refine congrArg some ?_
  have h1 : 2 ^ w < 2 ^ 32 := Nat.pow_lt_pow_right (by decide) (by omega)
  have h2 : 1 ≤ 2 ^ w := Nat.one_le_two_pow
  rw [Nat.mod_eq_of_lt h1]
  generalize 2 ^ w = a at h1 h2 ⊢
  omega

/-- At a width of 32 the mask of the source's `GENMASK` is 0. -/
theorem GENMASK_full : GENMASK ((32 : Nat) - 1 : Int) 0 = some 0 := by
  decide

theorem testBit_not32 (x i : Nat) : (not32 x).testBit i = (decide (i < 32) && !x.testBit i) := by
  have hx : x % 2 ^ 32 < 2 ^ 32 := Nat.mod_lt _ (by decide)
  have e : not32 x = 2 ^ 32 - (x % 2 ^ 32 + 1) := by unfold not32; omega
  rw [e, Nat.testBit_two_pow_sub_succ hx, Nat.testBit_mod_two_pow]
  by_cases h : i < 32 <;> simp [h]

theorem clk_readl_lt (regs : RegFile) (ofs : Nat) : clk_readl regs ofs < 2 ^ 32 :=
  Nat.mod_lt _ (by decide)

theorem clk_readl_writel_same (v ofs : Nat) (regs : RegFile) :
    clk_readl (clk_writel v ofs regs) ofs = v % 2 ^ 32 := by
  simp [clk_readl, clk_writel]

theorem clk_readl_writel_other (v ofs a : Nat) (regs : RegFile) (h : a ≠ ofs) :
    clk_readl (clk_writel v ofs regs) a = clk_readl regs a := by
  simp [clk_readl, clk_writel, h]

theorem BIT_of_nonneg {n : Int} (h : 0 ≤ n) : BIT n = some (2 ^ n.toNat) := by
  obtain ⟨k, rfl⟩ := Int.eq_ofNat_of_zero_le h
  simpa using BIT_natCast k

/-- The closing block always completes; its result spelled out. -/
theorem write_back_eq (mux : mtk_mux_upd_data) (regs : RegFile) (orig val : Nat) :
    write_back mux regs orig val = some
      (if val ≠ orig then
        (if mux.upd_shift > 0 then
          (clk_writel (2 ^ mux.upd_shift.toNat) mux.upd_ofs (clk_writel val mux.mux_ofs regs),
            [Access.write mux.mux_ofs (val % 2 ^ 32),
             Access.write mux.upd_ofs (2 ^ mux.upd_shift.toNat % 2 ^ 32)])
        else (clk_writel val mux.mux_ofs regs, [Access.write mux.mux_ofs (val % 2 ^ 32)]))
      else (regs, [])) := by
  unfold write_back
  by_cases h : val ≠ orig
  · by_cases hu : mux.upd_shift > 0
    · rw [if_pos h, if_pos h]
      simp only [if_pos hu, BIT_of_nonneg (le_of_lt hu)]
      rfl
    · rw [if_pos h, if_pos h]
      simp only [if_neg hu]
      rfl
  · rw [if_neg h, if_neg h]
    rfl

/-- After the closing block the select register reads as the new value,
when the update register is another register. -/
theorem write_back_readl (mux : mtk_mux_upd_data) (regs : RegFile) (val : Nat)
    (hofs : mux.upd_ofs ≠ mux.mux_ofs) (hval : val < 2 ^ 32) :
    ∃ r t, write_back mux regs (clk_readl regs mux.mux_ofs) val = some (r, t) ∧
      clk_readl r mux.mux_ofs = val := by
  rw [write_back_eq]
  by_cases h : val ≠ clk_readl regs mux.mux_ofs
  · by_cases hu : mux.upd_shift > 0
    · refine ⟨_, _, by rw [if_pos h, if_pos hu], ?_⟩
      rw [clk_readl_writel_other _ _ _ _ (Ne.symm hofs), clk_readl_writel_same,
        Nat.mod_eq_of_lt hval]
    · refine ⟨_, _, by rw [if_pos h, if_neg hu], ?_⟩
      rw [clk_readl_writel_same, Nat.mod_eq_of_lt hval]
  · refine ⟨_, _, by rw [if_neg h], ?_⟩
    exact (not_not.mp h).symm

theorem field_insert_extract (orig index s w : Nat) (hfit : s + w ≤ 32) (hi : index < 2 ^ w) :
    (((orig &&& not32 (((2 ^ w - 1) <<< s) % 2 ^ 32)) ||| ((index <<< s) % 2 ^ 32)) >>> s)
      &&& (2 ^ w - 1) = index := by
  apply Nat.eq_of_testBit_eq
  intro j
  simp only [Nat.testBit_and, Nat.testBit_shiftRight, Nat.testBit_or, testBit_not32,
    Nat.testBit_mod_two_pow, Nat.testBit_shiftLeft, Nat.testBit_two_pow_sub_one]
  by_cases hj : j < w
  · have h1 : s + j < 32 := by omega
    have h2 : s + j - s = j := by omega
    simp [hj, h1, h2]
  · have h3 : index.testBit j = false :=
      Nat.testBit_lt_two_pow (lt_of_lt_of_le hi (Nat.pow_le_pow_right (by decide) (not_lt.mp hj)))
    simp [hj, h3]

theorem or_lt_two_pow32 {a b : Nat} (ha : a < 2 ^ 32) (hb : b < 2 ^ 32) : a ||| b < 2 ^ 32 :=
  Nat.or_lt_two_pow ha hb

theorem and_lt_two_pow32 {a : Nat} (b : Nat) (ha : a < 2 ^ 32) : a &&& b < 2 ^ 32 :=
  lt_of_le_of_lt Nat.and_le_left ha

/-- The select-register value `mtk_mux_upd_set_parent` computes, for a field
of `w` bits at bit `s`. -/
theorem set_parent_eq (mux : mtk_mux_upd_data) (index : Fin 256) (regs : RegFile) (s w : Nat)
    (hs : mux.mux_shift = (s : Int)) (hw : mux.mux_width = (w : Int))
    (hs31 : s ≤ 31) (hw31 : w ≤ 31) :
    mtk_mux_upd_set_parent mux index regs =
      (write_back mux regs (clk_readl regs mux.mux_ofs)
        ((clk_readl regs mux.mux_ofs &&& not32 (((2 ^ w - 1) <<< s) % 2 ^ 32))
          ||| ((index.val <<< s) % 2 ^ 32))).map
        (fun rt => { ret := 0, regs := rt.1, trace := Access.read mux.mux_ofs :: rt.2 }) := by
  unfold mtk_mux_upd_set_parent
  rw [hs, hw, GENMASK_natCast w hw31]
  simp only [Option.bind_eq_bind, Option.some_bind, shl32_natCast _ s hs31]
  rw [write_back_eq]
  rfl

theorem get_parent_eq (mux : mtk_mux_upd_data) (regs : RegFile) (s w : Nat)
    (hs : mux.mux_shift = (s : Int)) (hw : mux.mux_width = (w : Int))
    (hs31 : s ≤ 31) (hw31 : w ≤ 31) :
    mtk_mux_upd_get_parent mux regs = some
      (if (clk_readl regs mux.mux_ofs >>> s) &&& (2 ^ w - 1) ≥ mux.hw.num_parents then
        { ret := toU8 (-EINVAL), regs := regs, trace := [Access.read mux.mux_ofs] }
      else
        { ret := ((clk_readl regs mux.mux_ofs >>> s) &&& (2 ^ w - 1)) % 2 ^ 8, regs := regs,
          trace := [Access.read mux.mux_ofs] }) := by
  unfold mtk_mux_upd_get_parent
  rw [hs, hw, GENMASK_natCast w hw31, shr32_natCast _ s hs31]
  show (if _ then _ else _) = _
  split <;> rfl

theorem toU8_neg_EINVAL : toU8 (-EINVAL) = 234 := by decide

/-- With an update bit in 1..31 the closing block, when the value changed,
stores the value in the select register and then `1 << upd_shift` in the
update register, and nothing else. -/
theorem write_back_pulse (mux : mtk_mux_upd_data) (regs : RegFile) (orig val : Nat)
    (h1 : 1 ≤ mux.upd_shift) (h31 : mux.upd_shift ≤ 31) (hne : val ≠ orig) (hval : val < 2 ^ 32) :
    ∃ r, write_back mux regs orig val = some (r,
      [Access.write mux.mux_ofs val, Access.write mux.upd_ofs (2 ^ mux.upd_shift.toNat)]) := by
  have hu : mux.upd_shift > 0 := by omega
  have hlt : 2 ^ mux.upd_shift.toNat < 2 ^ 32 :=
    Nat.pow_lt_pow_right (by decide) (by omega)
  rw [write_back_eq, if_pos hne, if_pos hu, Nat.mod_eq_of_lt hval, Nat.mod_eq_of_lt hlt]
  exact ⟨_, rfl⟩

theorem enable_eq (mux : mtk_mux_upd_data) (regs : RegFile) (g : Nat)
    (hg : mux.gate_shift = (g : Int)) :
    mtk_mux_upd_enable mux regs =
      (write_back mux regs (clk_readl regs mux.mux_ofs)
        (clk_readl regs mux.mux_ofs &&& not32 (2 ^ g))).map
        (fun rt => { ret := 0, regs := rt.1, trace := Access.read mux.mux_ofs :: rt.2 }) := by
  unfold mtk_mux_upd_enable
  rw [hg, BIT_natCast]
  simp only [Option.bind_eq_bind, Option.some_bind]
  rw [write_back_eq]
  rfl

theorem disable_eq (mux : mtk_mux_upd_data) (regs : RegFile) (g : Nat)
    (hg : mux.gate_shift = (g : Int)) :
    mtk_mux_upd_disable mux regs =
      (write_back mux regs (clk_readl regs mux.mux_ofs)
        ((clk_readl regs mux.mux_ofs ||| 2 ^ g) % 2 ^ 32)).map
        (fun rt => { ret := (), regs := rt.1, trace := Access.read mux.mux_ofs :: rt.2 }) := by
  unfold mtk_mux_upd_disable
  rw [hg, BIT_natCast]
  simp only [Option.bind_eq_bind, Option.some_bind]
  rw [write_back_eq]
  rfl

theorem is_enabled_eq (mux : mtk_mux_upd_data) (regs : RegFile) (g : Nat)
    (hg : mux.gate_shift = (g : Int)) :
    mtk_mux_upd_is_enabled mux regs = some
      { ret := decide (clk_readl regs mux.mux_ofs &&& 2 ^ g = 0), regs := regs,
        trace := [Access.read mux.mux_ofs] } := by
  unfold mtk_mux_upd_is_enabled
  rw [hg, BIT_natCast, if_neg (by omega)]
  rfl

theorem and_not32_and_two_pow (x g : Nat) : (x &&& not32 (2 ^ g)) &&& 2 ^ g = 0 := by
  apply Nat.eq_of_testBit_eq
  intro j
  simp only [Nat.testBit_and, testBit_not32, Nat.testBit_two_pow, Nat.zero_testBit]
  by_cases h : g = j <;> simp [h]

theorem or_two_pow_and_two_pow (x g : Nat) (hg : g < 32) :
    ((x ||| 2 ^ g) % 2 ^ 32) &&& 2 ^ g ≠ 0 := by
  intro h
  have hb : (((x ||| 2 ^ g) % 2 ^ 32) &&& 2 ^ g).testBit g = true := by
    rw [Nat.testBit_and, Nat.testBit_mod_two_pow, Nat.testBit_or, Nat.testBit_two_pow_self]
    simp [hg]
  rw [h, Nat.zero_testBit] at hb
  exact Bool.noConfusion hb

theorem and_not32_of_clear (x g : Nat) (hx : x < 2 ^ 32) (hb : x.testBit g = false) :
    x &&& not32 (2 ^ g) = x := by
  apply Nat.eq_of_testBit_eq
  intro j
  simp only [Nat.testBit_and, testBit_not32, Nat.testBit_two_pow]
  by_cases hj : j < 32
  · by_cases h : g = j
    · subst h; simp [hb]
    · simp [hj, h]
  · have : x.testBit j = false :=
      Nat.testBit_lt_two_pow (lt_of_lt_of_le hx (Nat.pow_le_pow_right (by decide) (not_lt.mp hj)))
    simp [this]

theorem or_two_pow_of_set (x g : Nat) (hx : x < 2 ^ 32) (hb : x.testBit g = true) :
    (x ||| 2 ^ g) % 2 ^ 32 = x := by
  apply Nat.eq_of_testBit_eq
  intro j
  simp only [Nat.testBit_mod_two_pow, Nat.testBit_or, Nat.testBit_two_pow]
  by_cases hj : j < 32
  · by_cases h : g = j
    · subst h; simp [hb, hj]
    · simp [hj, h]
  · have : x.testBit j = false :=
      Nat.testBit_lt_two_pow (lt_of_lt_of_le hx (Nat.pow_le_pow_right (by decide) (not_lt.mp hj)))
    simp [this, hj]

theorem field_keep (orig index s w : Nat) (horig : orig < 2 ^ 32)
    (hcur : (orig >>> s) &&& (2 ^ w - 1) = index) :
    (orig &&& not32 (((2 ^ w - 1) <<< s) % 2 ^ 32)) ||| ((index <<< s) % 2 ^ 32) = orig := by
  subst hcur
  apply Nat.eq_of_testBit_eq
  intro j
  simp only [Nat.testBit_and, Nat.testBit_shiftRight, Nat.testBit_or, testBit_not32,
    Nat.testBit_mod_two_pow, Nat.testBit_shiftLeft, Nat.testBit_two_pow_sub_one]
  by_cases hj : j < 32
  · by_cases hs : s ≤ j
    · have e : s + (j - s) = j := by omega
      by_cases hw : j - s < w
      · simp [hj, hs, hw, e]
      · simp [hj, hs, hw]
    · have hs2 : ¬ j ≥ s := hs
      simp [hj, hs2]
  · have : orig.testBit j = false :=
      Nat.testBit_lt_two_pow (lt_of_lt_of_le horig (Nat.pow_le_pow_right (by decide) (not_lt.mp hj)))
    simp [this, hj]

/-- The value `mtk_mux_upd_set_parent` computes at a width of 32 (shift 0):
the mask is 0, nothing is cleared and the index is or-ed in. -/
theorem set_parent_full_eq (mux : mtk_mux_upd_data) (index : Fin 256) (regs : RegFile)
    (hs : mux.mux_shift = ((0 : Nat) : Int)) (hw : mux.mux_width = ((32 : Nat) : Int)) :
    mtk_mux_upd_set_parent mux index regs =
      (write_back mux regs (clk_readl regs mux.mux_ofs)
        (clk_readl regs mux.mux_ofs ||| index.val)).map
        (fun rt => { ret := 0, regs := rt.1, trace := Access.read mux.mux_ofs :: rt.2 }) := by
  have hv : (clk_readl regs mux.mux_ofs &&& not32 ((0 <<< 0) % 2 ^ 32))
      ||| ((index.val <<< 0) % 2 ^ 32) = clk_readl regs mux.mux_ofs ||| index.val := by
    have h1 : not32 ((0 <<< 0) % 2 ^ 32) = 2 ^ 32 - 1 := by decide
    have h2 : (index.val <<< 0) % 2 ^ 32 = index.val := by
      rw [Nat.shiftLeft_zero]
      exact Nat.mod_eq_of_lt (lt_trans index.isLt (by decide))
    rw [h1, h2, Nat.and_pow_two_sub_one_of_lt_two_pow (clk_readl_lt _ _)]
  unfold mtk_mux_upd_set_parent
  rw [hs, hw, GENMASK_full]
  simp only [Option.bind_eq_bind, Option.some_bind, shl32_natCast _ 0 (Nat.zero_le 31)]
  rw [hv, write_back_eq]
  rfl

/-- After `mtk_mux_upd_set_parent` the select field of the select register
holds the index, when the index fits the field and the update register is
another register. -/
theorem set_parent_field (mux : mtk_mux_upd_data) (regs : RegFile) (index : Fin 256) (s w : Nat)
    (hs : mux.mux_shift = (s : Int)) (hw : mux.mux_width = (w : Int)) (hsw : s + w ≤ 32)
    (hs31 : s ≤ 31) (hw31 : w ≤ 31)
    (hiw : index.val < 2 ^ w) (hofs : mux.upd_ofs ≠ mux.mux_ofs) :
    ∃ o, mtk_mux_upd_set_parent mux index regs = some o ∧ o.ret = 0 ∧
      (clk_readl o.regs mux.mux_ofs >>> s) &&& (2 ^ w - 1) = index.val := by
  have hval : (clk_readl regs mux.mux_ofs &&& not32 (((2 ^ w - 1) <<< s) % 2 ^ 32))
      ||| ((index.val <<< s) % 2 ^ 32) < 2 ^ 32 :=
    or_lt_two_pow32 (and_lt_two_pow32 _ (clk_readl_lt _ _)) (Nat.mod_lt _ (by decide))
  obtain ⟨r, t, hwb, hread⟩ := write_back_readl mux regs _ hofs hval
  refine ⟨{ ret := 0, regs := r, trace := Access.read mux.mux_ofs :: t }, ?_, rfl, ?_⟩
  · rw [set_parent_eq mux index regs s w hs hw hs31 hw31, hwb]
    rfl
  · show (clk_readl r mux.mux_ofs >>> s) &&& (2 ^ w - 1) = index.val
    rw [hread]
    exact field_insert_extract (clk_readl regs mux.mux_ofs) index.val s w hsw hiw

/-- The closing block issues no store, or the select store alone (no update
pulse), or the select store followed by the update pulse (`upd_shift > 0`). -/
theorem write_back_shape (mux : mtk_mux_upd_data) (regs : RegFile) (orig val : Nat) :
    ∃ r t, write_back mux regs orig val = some (r, t) ∧
      ((t = [] ∧ r = regs) ∨
       (t = [Access.write mux.mux_ofs (val % 2 ^ 32)] ∧ r = clk_writel val mux.mux_ofs regs ∧
          ¬ mux.upd_shift > 0) ∨
       (t = [Access.write mux.mux_ofs (val % 2 ^ 32),
             Access.write mux.upd_ofs (2 ^ mux.upd_shift.toNat % 2 ^ 32)] ∧
          r = clk_writel (2 ^ mux.upd_shift.toNat) mux.upd_ofs (clk_writel val mux.mux_ofs regs) ∧
          mux.upd_shift > 0)) := by
  rw [write_back_eq]
  by_cases h : val ≠ orig
  · by_cases hu : mux.upd_shift > 0
    · rw [if_pos h, if_pos hu]
      exact ⟨_, _, rfl, Or.inr (Or.inr ⟨rfl, rfl, hu⟩)⟩
    · rw [if_pos h, if_neg hu]
      exact ⟨_, _, rfl, Or.inr (Or.inl ⟨rfl, rfl, hu⟩)⟩
  · rw [if_neg h]
    exact ⟨_, _, rfl, Or.inl ⟨rfl, rfl⟩⟩

/-- Whenever `mtk_mux_upd_enable` has a result, it is the load followed by the
closing block on some value. -/
theorem enable_some (mux : mtk_mux_upd_data) (regs : RegFile) (o : Outcome Int)
    (h : mtk_mux_upd_enable mux regs = some o) :
    ∃ val t, write_back mux regs (clk_readl regs mux.mux_ofs) val = some (o.regs, t) ∧
      o.trace = Access.read mux.mux_ofs :: t ∧ 0 ≤ mux.gate_shift := by
  by_cases hg : 0 ≤ mux.gate_shift
  · obtain ⟨g, hg2⟩ := Int.eq_ofNat_of_zero_le hg
    rw [enable_eq mux regs g hg2] at h
    obtain ⟨r, t, hwb, -⟩ := write_back_shape mux regs (clk_readl regs mux.mux_ofs)
      (clk_readl regs mux.mux_ofs &&& not32 (2 ^ g))
    rw [hwb] at h
    have ho := Option.some.inj h
    subst ho
    exact ⟨_, t, hwb, rfl, hg⟩
  · exfalso
    unfold mtk_mux_upd_enable at h
    simp [BIT, shiftCount, hg] at h

theorem disable_some (mux : mtk_mux_upd_data) (regs : RegFile) (o : Outcome Unit)
    (h : mtk_mux_upd_disable mux regs = some o) :
    ∃ val t, write_back mux regs (clk_readl regs mux.mux_ofs) val = some (o.regs, t) ∧
      o.trace = Access.read mux.mux_ofs :: t ∧ 0 ≤ mux.gate_shift := by
  by_cases hg : 0 ≤ mux.gate_shift
  · obtain ⟨g, hg2⟩ := Int.eq_ofNat_of_zero_le hg
    rw [disable_eq mux regs g hg2] at h
    obtain ⟨r, t, hwb, -⟩ := write_back_shape mux regs (clk_readl regs mux.mux_ofs)
      ((clk_readl regs mux.mux_ofs ||| 2 ^ g) % 2 ^ 32)
    rw [hwb] at h
    have ho := Option.some.inj h
    subst ho
    exact ⟨_, t, hwb, rfl, hg⟩
  · exfalso
    unfold mtk_mux_upd_disable at h
    simp [BIT, shiftCount, hg] at h

theorem set_parent_some (mux : mtk_mux_upd_data) (index : Fin 256) (regs : RegFile)
    (o : Outcome Int) (h : mtk_mux_upd_set_parent mux index regs = some o) :
    ∃ val t, write_back mux regs (clk_readl regs mux.mux_ofs) val = some (o.regs, t) ∧
      o.trace = Access.read mux.mux_ofs :: t := by
  unfold mtk_mux_upd_set_parent at h
  simp only [Option.bind_eq_bind] at h
  obtain ⟨mask, -, h⟩ := Option.bind_eq_some.mp h
  obtain ⟨field, -, h⟩ := Option.bind_eq_some.mp h
  obtain ⟨placed, -, h⟩ := Option.bind_eq_some.mp h
  obtain ⟨⟨r, t⟩, hwb, h⟩ := Option.bind_eq_some.mp h
  have ho := Option.some.inj h
  subst ho
  exact ⟨_, t, hwb, rfl⟩

theorem get_parent_some (mux : mtk_mux_upd_data) (regs : RegFile)
    (o : Outcome Nat) (h : mtk_mux_upd_get_parent mux regs = some o) :
    o.regs = regs ∧ o.trace = [Access.read mux.mux_ofs] := by
  unfold mtk_mux_upd_get_parent at h
  simp only [Option.bind_eq_bind] at h
  obtain ⟨mask, -, h⟩ := Option.bind_eq_some.mp h
  obtain ⟨shifted, -, h⟩ := Option.bind_eq_some.mp h
  split at h
  · have ho := Option.some.inj h
    subst ho
    exact ⟨rfl, rfl⟩
  · have ho := Option.some.inj h
    subst ho
    exact ⟨rfl, rfl⟩

theorem is_enabled_some (mux : mtk_mux_upd_data) (regs : RegFile)
    (o : Outcome Bool) (h : mtk_mux_upd_is_enabled mux regs = some o) :
    o.regs = regs ∧
      ((mux.gate_shift < 0 ∧ o.trace = []) ∨
       (0 ≤ mux.gate_shift ∧ o.trace = [Access.read mux.mux_ofs])) := by
  by_cases hg : mux.gate_shift < 0
  · rw [show mtk_mux_upd_is_enabled mux regs = some { ret := true, regs := regs, trace := [] } by
      unfold mtk_mux_upd_is_enabled; rw [if_pos hg]; rfl] at h
    have ho := Option.some.inj h
    subst ho
    exact ⟨rfl, Or.inl ⟨hg, rfl⟩⟩
  · obtain ⟨g, hg2⟩ := Int.eq_ofNat_of_zero_le (not_lt.mp hg)
    rw [is_enabled_eq mux regs g hg2] at h
    have ho := Option.some.inj h
    subst ho
    exact ⟨rfl, Or.inr ⟨not_lt.mp hg, rfl⟩⟩

/-- The accesses of any call that has a result: nothing at all (`is_enabled`
without a gate), or the one load of the select register, followed for a
mutating call by nothing, by the select store, or by the select store and the
update pulse (`upd_shift > 0`). -/
theorem run_op_shape (mux : mtk_mux_upd_data) (regs : RegFile) (c : mux_op)
    (r : RegFile) (t : List Access) (h : run_op mux regs c = some (r, t)) :
    (t = [] ∧ r = regs ∧ c = mux_op.is_enabled ∧ mux.gate_shift < 0) ∨
    (t = [Access.read mux.mux_ofs] ∧ r = regs) ∨
    (∃ v, t = [Access.read mux.mux_ofs, Access.write mux.mux_ofs (v % 2 ^ 32)] ∧
        r = clk_writel v mux.mux_ofs regs ∧ ¬ mux.upd_shift > 0 ∧
        c ≠ mux_op.is_enabled ∧ c ≠ mux_op.get_parent) ∨
    (∃ v, t = [Access.read mux.mux_ofs, Access.write mux.mux_ofs (v % 2 ^ 32),
               Access.write mux.upd_ofs (2 ^ mux.upd_shift.toNat % 2 ^ 32)] ∧
        r = clk_writel (2 ^ mux.upd_shift.toNat) mux.upd_ofs (clk_writel v mux.mux_ofs regs) ∧
        mux.upd_shift > 0 ∧ c ≠ mux_op.is_enabled ∧ c ≠ mux_op.get_parent) := by
  have key : ∀ (val : Nat) (t0 : List Access) (hc1 : c ≠ mux_op.is_enabled)
      (hc2 : c ≠ mux_op.get_parent),
      write_back mux regs (clk_readl regs mux.mux_ofs) val = some (r, t0) →
      t = Access.read mux.mux_ofs :: t0 →
      (t = [] ∧ r = regs ∧ c = mux_op.is_enabled ∧ mux.gate_shift < 0) ∨
      (t = [Access.read mux.mux_ofs] ∧ r = regs) ∨
      (∃ v, t = [Access.read mux.mux_ofs, Access.write mux.mux_ofs (v % 2 ^ 32)] ∧
          r = clk_writel v mux.mux_ofs regs ∧ ¬ mux.upd_shift > 0 ∧
          c ≠ mux_op.is_enabled ∧ c ≠ mux_op.get_parent) ∨
      (∃ v, t = [Access.read mux.mux_ofs, Access.write mux.mux_ofs (v % 2 ^ 32),
                 Access.write mux.upd_ofs (2 ^ mux.upd_shift.toNat % 2 ^ 32)] ∧
          r = clk_writel (2 ^ mux.upd_shift.toNat) mux.upd_ofs (clk_writel v mux.mux_ofs regs) ∧
          mux.upd_shift > 0 ∧ c ≠ mux_op.is_enabled ∧ c ≠ mux_op.get_parent) := by
    intro val t0 hc1 hc2 hwb ht
    obtain ⟨r1, t1, hwb1, hsh⟩ := write_back_shape mux regs (clk_readl regs mux.mux_ofs) val
    rw [hwb] at hwb1
    have e := Option.some.inj hwb1
    have er : r = r1 := congrArg Prod.fst e
    have et : t0 = t1 := congrArg Prod.snd e
    subst er et
    rcases hsh with ⟨h1, h2⟩ | ⟨h1, h2, h3⟩ | ⟨h1, h2, h3⟩
    · exact Or.inr (Or.inl ⟨by rw [ht, h1], h2⟩)
    · exact Or.inr (Or.inr (Or.inl ⟨val, by rw [ht, h1], h2, h3, hc1, hc2⟩))
    · exact Or.inr (Or.inr (Or.inr ⟨val, by rw [ht, h1], h2, h3, hc1, hc2⟩))
  cases c with
  | enable =>
    obtain ⟨o, ho, he⟩ := Option.map_eq_some'.mp h
    obtain ⟨val, t0, hwb, htr, -⟩ := enable_some mux regs o ho
    have e1 : o.regs = r := congrArg Prod.fst he
    have e2 : o.trace = t := congrArg Prod.snd he
    rw [e1] at hwb
    rw [e2] at htr
    exact key val t0 (by decide) (by decide) hwb htr
  | disable =>
    obtain ⟨o, ho, he⟩ := Option.map_eq_some'.mp h
    obtain ⟨val, t0, hwb, htr, -⟩ := disable_some mux regs o ho
    have e1 : o.regs = r := congrArg Prod.fst he
    have e2 : o.trace = t := congrArg Prod.snd he
    rw [e1] at hwb
    rw [e2] at htr
    exact key val t0 (by decide) (by decide) hwb htr
  | set_parent index =>
    obtain ⟨o, ho, he⟩ := Option.map_eq_some'.mp h
    obtain ⟨val, t0, hwb, htr⟩ := set_parent_some mux index regs o ho
    have e1 : o.regs = r := congrArg Prod.fst he
    have e2 : o.trace = t := congrArg Prod.snd he
    rw [e1] at hwb
    rw [e2] at htr
    exact key val t0 (by simp) (by simp) hwb htr
  | is_enabled =>
    obtain ⟨o, ho, he⟩ := Option.map_eq_some'.mp h
    have e1 : o.regs = r := congrArg Prod.fst he
    have e2 : o.trace = t := congrArg Prod.snd he
    obtain ⟨hr, hcase⟩ := is_enabled_some mux regs o ho
    rw [e1] at hr
    rw [e2] at hcase
    rcases hcase with ⟨hg, ht⟩ | ⟨-, ht⟩
    · exact Or.inl ⟨ht, hr, rfl, hg⟩
    · exact Or.inr (Or.inl ⟨ht, hr⟩)
  | get_parent =>
    obtain ⟨o, ho, he⟩ := Option.map_eq_some'.mp h
    have e1 : o.regs = r := congrArg Prod.fst he
    have e2 : o.trace = t := congrArg Prod.snd he
    obtain ⟨hr, ht⟩ := get_parent_some mux regs o ho
    rw [e1] at hr
    rw [e2] at ht
    exact Or.inr (Or.inl ⟨ht, hr⟩)

theorem and_two_pow_eq_zero_iff (x g : Nat) : x &&& 2 ^ g = 0 ↔ x.testBit g = false := by
  constructor
  · intro h
    have hb : (x &&& 2 ^ g).testBit g = (x.testBit g && true) := by
      rw [Nat.testBit_and, Nat.testBit_two_pow_self]
    rw [h, Nat.zero_testBit] at hb
    simpa using hb.symm
  · intro h
    apply Nat.eq_of_testBit_eq
    intro j
    rw [Nat.testBit_and, Nat.testBit_two_pow, Nat.zero_testBit]
    by_cases hj : g = j
    · subst hj; simp [h]
    · simp [hj]

/-- With a gate bit configured both gate operations have a result. -/
theorem enable_defined (mux : mtk_mux_upd_data) (regs : RegFile) (hg : 0 ≤ mux.gate_shift) :
    ∃ o, mtk_mux_upd_enable mux regs = some o ∧ o.ret = 0 := by
  obtain ⟨g, hg2⟩ := Int.eq_ofNat_of_zero_le hg
  obtain ⟨r, t, hwb, -⟩ := write_back_shape mux regs (clk_readl regs mux.mux_ofs)
    (clk_readl regs mux.mux_ofs &&& not32 (2 ^ g))
  rw [enable_eq mux regs g hg2, hwb]
  exact ⟨_, rfl, rfl⟩

theorem disable_defined (mux : mtk_mux_upd_data) (regs : RegFile) (hg : 0 ≤ mux.gate_shift) :
    ∃ o, mtk_mux_upd_disable mux regs = some o := by
  obtain ⟨g, hg2⟩ := Int.eq_ofNat_of_zero_le hg
  obtain ⟨r, t, hwb, -⟩ := write_back_shape mux regs (clk_readl regs mux.mux_ofs)
    ((clk_readl regs mux.mux_ofs ||| 2 ^ g) % 2 ^ 32)
  rw [disable_eq mux regs g hg2, hwb]
  exact ⟨_, rfl⟩

theorem clk_writel_other (v ofs a : Nat) (regs : RegFile) (h : a ≠ ofs) :
    clk_writel v ofs regs a = regs a := by
  simp [clk_writel, h]

theorem shiftLeft_lt_two_pow32 (x s w : Nat) (hx : x < 2 ^ w) (hsw : s + w ≤ 32) :
    x <<< s < 2 ^ 32 := by
  rw [Nat.shiftLeft_eq]
  calc x * 2 ^ s < 2 ^ w * 2 ^ s := Nat.mul_lt_mul_of_pos_right hx (Nat.two_pow_pos s)
    _ = 2 ^ (w + s) := (Nat.pow_add 2 w s).symm
    _ ≤ 2 ^ 32 := Nat.pow_le_pow_right (by decide) (by omega)

/-- Bit by bit, the value `mtk_mux_upd_set_parent` computes: inside the field
the bits of the index, outside the bits of the old value. -/
theorem set_parent_bits (old index s w j : Nat) (hold : old < 2 ^ 32) (hsw : s + w ≤ 32)
    (hi : index < 2 ^ w) :
    ((old &&& not32 (((2 ^ w - 1) <<< s) % 2 ^ 32)) ||| ((index <<< s) % 2 ^ 32)).testBit j =
      if s ≤ j ∧ j < s + w then index.testBit (j - s) else old.testBit j := by
  simp only [Nat.testBit_and, Nat.testBit_or, testBit_not32, Nat.testBit_mod_two_pow,
    Nat.testBit_shiftLeft, Nat.testBit_two_pow_sub_one]
  by_cases hj32 : j < 32
  · by_cases hs : s ≤ j
    · by_cases hw : j - s < w
      · have hin : s ≤ j ∧ j < s + w := ⟨hs, by omega⟩
        have hge : j ≥ s := hs
        simp [hj32, hge, hw, hin]
      · have hout : ¬ (s ≤ j ∧ j < s + w) := fun h => hw (by omega)
        have hge : j ≥ s := hs
        have hib : index.testBit (j - s) = false :=
          Nat.testBit_lt_two_pow
            (lt_of_lt_of_le hi (Nat.pow_le_pow_right (by decide) (not_lt.mp hw)))
        simp [hj32, hge, hw, hout, hib]
        intro _
        omega
    · have hout : ¬ (s ≤ j ∧ j < s + w) := fun h => hs h.1
      have hge : ¬ j ≥ s := hs
      simp [hj32, hge, hout]
  · have hout : ¬ (s ≤ j ∧ j < s + w) := fun h => hj32 (by omega)
    have hob : old.testBit j = false :=
      Nat.testBit_lt_two_pow
        (lt_of_lt_of_le hold (Nat.pow_le_pow_right (by decide) (not_lt.mp hj32)))
    simp [hj32, hout, hob]

theorem enable_bits (old g j : Nat) (hold : old < 2 ^ 32) :
    (old &&& not32 (2 ^ g)).testBit j = (old.testBit j && decide (j ≠ g)) := by
  simp only [Nat.testBit_and, testBit_not32, Nat.testBit_two_pow]
  by_cases hj32 : j < 32
  · by_cases hg : g = j
    · subst hg; simp
    · have hg2 : ¬ j = g := fun h => hg h.symm
      simp [hj32, hg, hg2]
  · have hob : old.testBit j = false :=
      Nat.testBit_lt_two_pow
        (lt_of_lt_of_le hold (Nat.pow_le_pow_right (by decide) (not_lt.mp hj32)))
    simp [hob]

theorem disable_bits_ne (old g j : Nat) (hold : old < 2 ^ 32) (hj : j ≠ g) :
    ((old ||| 2 ^ g) % 2 ^ 32).testBit j = old.testBit j := by
  simp only [Nat.testBit_mod_two_pow, Nat.testBit_or, Nat.testBit_two_pow]
  have hg : ¬ g = j := fun h => hj h.symm
  by_cases hj32 : j < 32
  · simp [hj32, hg]
  · have hob : old.testBit j = false :=
      Nat.testBit_lt_two_pow
        (lt_of_lt_of_le hold (Nat.pow_le_pow_right (by decide) (not_lt.mp hj32)))
    simp [hj32, hob]

/-- The result of `mtk_mux_upd_get_parent` depends only on the bits of the
select field. -/
theorem get_parent_ret_congr (mux : mtk_mux_upd_data) (r1 r2 : RegFile) (s w : Nat)
    (hs : mux.mux_shift = (s : Int)) (hw : mux.mux_width = (w : Int))
    (hs31 : s ≤ 31) (hw31 : w ≤ 31)
    (hbits : ∀ j, j < w →
      (clk_readl r2 mux.mux_ofs).testBit (s + j) = (clk_readl r1 mux.mux_ofs).testBit (s + j)) :
    ∃ p q, mtk_mux_upd_get_parent mux r1 = some p ∧ mtk_mux_upd_get_parent mux r2 = some q ∧
      q.ret = p.ret := by
  have hfield : (clk_readl r2 mux.mux_ofs >>> s) &&& (2 ^ w - 1)
      = (clk_readl r1 mux.mux_ofs >>> s) &&& (2 ^ w - 1) := by
    apply Nat.eq_of_testBit_eq
    intro j
    simp only [Nat.testBit_and, Nat.testBit_shiftRight, Nat.testBit_two_pow_sub_one]
    by_cases hj : j < w
    · rw [hbits j hj]
    · simp [hj]
  rw [get_parent_eq mux r1 s w hs hw hs31 hw31, get_parent_eq mux r2 s w hs hw hs31 hw31,
    hfield]
  by_cases hc : (clk_readl r1 mux.mux_ofs >>> s) &&& (2 ^ w - 1) ≥ mux.hw.num_parents
  · rw [if_pos hc, if_pos hc]
    exact ⟨_, _, rfl, rfl, rfl⟩
  · rw [if_neg hc, if_neg hc]
    exact ⟨_, _, rfl, rfl, rfl⟩

/-- The result of `mtk_mux_upd_is_enabled` depends only on the gate bit. -/
theorem is_enabled_ret_congr (mux : mtk_mux_upd_data) (r1 r2 : RegFile)
    (hbit : 0 ≤ mux.gate_shift →
      (clk_readl r2 mux.mux_ofs).testBit mux.gate_shift.toNat
        = (clk_readl r1 mux.mux_ofs).testBit mux.gate_shift.toNat) :
    ∃ p q, mtk_mux_upd_is_enabled mux r1 = some p ∧ mtk_mux_upd_is_enabled mux r2 = some q ∧
      q.ret = p.ret := by
  by_cases hg : mux.gate_shift < 0
  · have e : ∀ r : RegFile, mtk_mux_upd_is_enabled mux r
        = some { ret := true, regs := r, trace := [] } := by
      intro r
      unfold mtk_mux_upd_is_enabled
      rw [if_pos hg]
      rfl
    rw [e r1, e r2]
    exact ⟨_, _, rfl, rfl, rfl⟩
  · have hg0 : 0 ≤ mux.gate_shift := not_lt.mp hg
    obtain ⟨g, hg2⟩ := Int.eq_ofNat_of_zero_le hg0
    have hb := hbit hg0
    rw [hg2] at hb
    simp only [Int.toNat_ofNat] at hb
    rw [is_enabled_eq mux r1 g hg2, is_enabled_eq mux r2 g hg2]
    refine ⟨_, _, rfl, rfl, ?_⟩
    show decide (clk_readl r2 mux.mux_ofs &&& 2 ^ g = 0)
      = decide (clk_readl r1 mux.mux_ofs &&& 2 ^ g = 0)
    rw [decide_eq_decide, and_two_pow_eq_zero_iff, and_two_pow_eq_zero_iff, hb]

theorem or_two_pow_lt (x g : Nat) (hx : x < 2 ^ 32) (hg : g < 32) : x ||| 2 ^ g < 2 ^ 32 :=
  Nat.or_lt_two_pow hx (Nat.pow_lt_pow_right (by decide) hg)

theorem GENMASK_defined (w : Nat) : ∃ m, GENMASK ((w : Int) - 1) 0 = some m := by
  have e : (w : Int) - 1 - 0 + 1 = (w : Int) := by ring
  unfold GENMASK
  rw [e, shl32_eq]
  show ∃ m, shl32 _ ((0 : Nat) : Int) = some m
  rw [shl32_eq]
  exact ⟨_, rfl⟩

theorem get_parent_defined (mux : mtk_mux_upd_data) (regs : RegFile)
    (hshift : 0 ≤ mux.mux_shift) (hwidth : 0 ≤ mux.mux_width) :
    ∃ o, mtk_mux_upd_get_parent mux regs = some o := by
  obtain ⟨s, hs⟩ := Int.eq_ofNat_of_zero_le hshift
  obtain ⟨w, hw⟩ := Int.eq_ofNat_of_zero_le hwidth
  obtain ⟨m, hm⟩ := GENMASK_defined w
  unfold mtk_mux_upd_get_parent
  rw [hs, hw, hm, shr32_eq]
  simp only [Option.bind_eq_bind, Option.some_bind]
  split
  · exact ⟨_, rfl⟩
  · exact ⟨_, rfl⟩

theorem set_parent_defined (mux : mtk_mux_upd_data) (index : Fin 256) (regs : RegFile)
    (hshift : 0 ≤ mux.mux_shift) (hwidth : 0 ≤ mux.mux_width) :
    ∃ o, mtk_mux_upd_set_parent mux index regs = some o := by
  obtain ⟨s, hs⟩ := Int.eq_ofNat_of_zero_le hshift
  obtain ⟨w, hw⟩ := Int.eq_ofNat_of_zero_le hwidth
  obtain ⟨m, hm⟩ := GENMASK_defined w
  unfold mtk_mux_upd_set_parent
  rw [hs, hw, hm]
  simp only [Option.bind_eq_bind, Option.some_bind, shl32_eq]
  obtain ⟨r, t, hwb, -⟩ := write_back_shape mux regs (clk_readl regs mux.mux_ofs)
    (clk_readl regs mux.mux_ofs &&& not32 (m <<< (s % 32) % 2 ^ 32)
      ||| index.val <<< (s % 32) % 2 ^ 32)
  rw [hwb]
  exact ⟨_, rfl⟩

/-- Every call has a result once the shift counts it uses are non-negative:
`mux_shift` and `mux_width` for the two parent operations, `gate_shift` for
enable and disable. -/
theorem run_op_defined (mux : mtk_mux_upd_data) (regs : RegFile) (c : mux_op)
    (hshift : 0 ≤ mux.mux_shift) (hwidth : 0 ≤ mux.mux_width)
    (hgate : c = mux_op.enable ∨ c = mux_op.disable → 0 ≤ mux.gate_shift) :
    ∃ r t, run_op mux regs c = some (r, t) := by
  cases c with
  | enable =>
    obtain ⟨o, ho, -⟩ := enable_defined mux regs (hgate (Or.inl rfl))
    exact ⟨o.regs, o.trace, by show Option.map _ (mtk_mux_upd_enable mux regs) = _; rw [ho]; rfl⟩
  | disable =>
    obtain ⟨o, ho⟩ := disable_defined mux regs (hgate (Or.inr rfl))
    exact ⟨o.regs, o.trace, by show Option.map _ (mtk_mux_upd_disable mux regs) = _; rw [ho]; rfl⟩
  | is_enabled =>
    obtain ⟨p, -, hp, -, -⟩ := is_enabled_ret_congr mux regs regs (fun _ => rfl)
    exact ⟨p.regs, p.trace, by
      show Option.map _ (mtk_mux_upd_is_enabled mux regs) = _; rw [hp]; rfl⟩
  | get_parent =>
    obtain ⟨o, ho⟩ := get_parent_defined mux regs hshift hwidth
    exact ⟨o.regs, o.trace, by
      show Option.map _ (mtk_mux_upd_get_parent mux regs) = _; rw [ho]; rfl⟩
  | set_parent index =>
    obtain ⟨o, ho⟩ := set_parent_defined mux index regs hshift hwidth
    exact ⟨o.regs, o.trace, by
      show Option.map _ (mtk_mux_upd_set_parent mux index regs) = _; rw [ho]; rfl⟩

/-- The stores of the closing block, counted: none when the value is the
value read; otherwise one when no update bit is configured and two when the
update bit is at position 1 or higher. -/
theorem write_back_length (mux : mtk_mux_upd_data) (regs : RegFile) (orig val : Nat)
    (r : RegFile) (t : List Access) (h : write_back mux regs orig val = some (r, t)) :
    (val = orig → t.length = 0) ∧
    (val ≠ orig → (mux.upd_shift < 0 → t.length = 1) ∧ (0 < mux.upd_shift → t.length = 2)) := by
  rw [write_back_eq] at h
  have e := Option.some.inj h
  constructor
  · intro hv
    rw [if_neg (not_not.mpr hv)] at e
    rw [← (Prod.mk.inj e).2]
    rfl
  · intro hv
    rw [if_pos hv] at e
    constructor
    · intro hu
      rw [if_neg (by omega)] at e
      rw [← (Prod.mk.inj e).2]
      rfl
    · intro hu
      rw [if_pos hu] at e
      rw [← (Prod.mk.inj e).2]
      rfl

theorem enable_trace (mux : mtk_mux_upd_data) (regs : RegFile) (gate : Nat)
    (hB : BIT mux.gate_shift = some gate) (o : Outcome Int)
    (h : mtk_mux_upd_enable mux regs = some o) :
    ∃ t0, write_back mux regs (clk_readl regs mux.mux_ofs)
        (clk_readl regs mux.mux_ofs &&& not32 gate) = some (o.regs, t0) ∧
      o.trace = Access.read mux.mux_ofs :: t0 := by
  unfold mtk_mux_upd_enable at h
  rw [hB] at h
  simp only [Option.bind_eq_bind, Option.some_bind] at h
  obtain ⟨⟨r, t⟩, hwb, h⟩ := Option.bind_eq_some.mp h
  have ho := Option.some.inj h
  subst ho
  exact ⟨t, hwb, rfl⟩

theorem disable_trace (mux : mtk_mux_upd_data) (regs : RegFile) (gate : Nat)
    (hB : BIT mux.gate_shift = some gate) (o : Outcome Unit)
    (h : mtk_mux_upd_disable mux regs = some o) :
    ∃ t0, write_back mux regs (clk_readl regs mux.mux_ofs)
        ((clk_readl regs mux.mux_ofs ||| gate) % 2 ^ 32) = some (o.regs, t0) ∧
      o.trace = Access.read mux.mux_ofs :: t0 := by
  unfold mtk_mux_upd_disable at h
  rw [hB] at h
  simp only [Option.bind_eq_bind, Option.some_bind] at h
  obtain ⟨⟨r, t⟩, hwb, h⟩ := Option.bind_eq_some.mp h
  have ho := Option.some.inj h
  subst ho
  exact ⟨t, hwb, rfl⟩

theorem set_parent_trace (mux : mtk_mux_upd_data) (index : Fin 256) (regs : RegFile)
    (mask field placed : Nat)
    (hmask : GENMASK (mux.mux_width - 1) 0 = some mask)
    (hfield : shl32 mask mux.mux_shift = some field)
    (hplaced : shl32 index.val mux.mux_shift = some placed) (o : Outcome Int)
    (h : mtk_mux_upd_set_parent mux index regs = some o) :
    ∃ t0, write_back mux regs (clk_readl regs mux.mux_ofs)
        ((clk_readl regs mux.mux_ofs &&& not32 field) ||| placed) = some (o.regs, t0) ∧
      o.trace = Access.read mux.mux_ofs :: t0 := by
  unfold mtk_mux_upd_set_parent at h
  rw [hmask] at h
  simp only [Option.bind_eq_bind, Option.some_bind] at h
  rw [hfield] at h
  simp only [Option.some_bind] at h
  rw [hplaced] at h
  simp only [Option.some_bind] at h
  obtain ⟨⟨r, t⟩, hwb, h⟩ := Option.bind_eq_some.mp h
  have ho := Option.some.inj h
  subst ho
  exact ⟨t, hwb, rfl⟩

/-! ## The claims -/

/-- C1 at the failing input, a select width of 32: `full_width_mux` satisfies
the listed invariants (shift 0, width 32, 200 parents), but `GENMASK(31, 0)`
shifts a 32-bit 1 by 32 and the mask comes out 0, so `mtk_mux_upd_set_parent`
with index 2 on a select register holding 5 stores `5 | 2 = 7`, and
`mtk_mux_upd_get_parent` on the registers it leaves returns 0, not 2. -/
theorem set_parent_then_get_parent_full_width_example :
    (0 ≤ full_width_mux.mux_shift ∧ 1 ≤ full_width_mux.mux_width ∧
      full_width_mux.mux_shift + full_width_mux.mux_width ≤ 32 ∧
      full_width_mux.hw.num_parents ≤ 2 ^ full_width_mux.mux_width.toNat ∧
      (2 : Fin 256).val < full_width_mux.hw.num_parents ∧
      full_width_mux.upd_ofs ≠ full_width_mux.mux_ofs) ∧
    (mtk_mux_upd_set_parent full_width_mux 2 (fun _ => 5)).map
        (fun o => (o.ret, o.trace, o.regs 64))
      = some (0, [Access.read 64, Access.write 64 7], 7) ∧
    (mtk_mux_upd_set_parent full_width_mux 2 (fun _ => 5)).bind
        (fun o => (mtk_mux_upd_get_parent full_width_mux o.regs).map (fun p => p.ret))
      = some 0 := by
  decide

/-- Round trip below the full width: on an instance whose select field lies
inside the 32-bit register and is less than the whole register (`mux_shift ≥ 0`,
`1 ≤ mux_width ≤ 31`, `mux_shift + mux_width ≤ 32`), with
`num_parents ≤ 2 ^ mux_width` and the update register at another offset than
the select register, `mtk_mux_upd_set_parent` with an index below
`num_parents` returns 0, and `mtk_mux_upd_get_parent` run on the registers it
leaves returns that index, whatever the registers held before. -/
theorem set_parent_then_get_parent (mux : mtk_mux_upd_data) (regs : RegFile) (index : Fin 256)
    (hshift : 0 ≤ mux.mux_shift) (hwidth : 1 ≤ mux.mux_width) (hw31 : mux.mux_width ≤ 31)
    (hfit : mux.mux_shift + mux.mux_width ≤ 32)
    (hnp : mux.hw.num_parents ≤ 2 ^ mux.mux_width.toNat)
    (hidx : index.val < mux.hw.num_parents)
    (hofs : mux.upd_ofs ≠ mux.mux_ofs) :
    ∃ o, mtk_mux_upd_set_parent mux index regs = some o ∧ o.ret = 0 ∧
      ∃ p, mtk_mux_upd_get_parent mux o.regs = some p ∧ p.ret = index.val := by
  obtain ⟨s, hs⟩ := Int.eq_ofNat_of_zero_le hshift
  obtain ⟨w, hw⟩ := Int.eq_ofNat_of_zero_le (le_trans (by decide) hwidth)
  have hsw : s + w ≤ 32 := by rw [hs, hw] at hfit; omega
  have hw1 : 1 ≤ w := by rw [hw] at hwidth; omega
  have hs31 : s ≤ 31 := by omega
  have hw31n : w ≤ 31 := by rw [hw] at hw31; omega
  have hiw : index.val < 2 ^ w := by
    rw [hw] at hnp
    exact lt_of_lt_of_le hidx (by simpa using hnp)
  have hval : (clk_readl regs mux.mux_ofs &&& not32 (((2 ^ w - 1) <<< s) % 2 ^ 32))
      ||| ((index.val <<< s) % 2 ^ 32) < 2 ^ 32 :=
    or_lt_two_pow32 (and_lt_two_pow32 _ (clk_readl_lt _ _)) (Nat.mod_lt _ (by decide))
  obtain ⟨r, t, hwb, hread⟩ := write_back_readl mux regs _ hofs hval
  refine ⟨{ ret := 0, regs := r, trace := Access.read mux.mux_ofs :: t }, ?_, rfl, ?_⟩
  · rw [set_parent_eq mux index regs s w hs hw hs31 hw31n, hwb]
    rfl
  · have hfield := field_insert_extract (clk_readl regs mux.mux_ofs) index.val s w hsw hiw
    rw [get_parent_eq mux r s w hs hw hs31 hw31n, hread, hfield,
      if_neg (not_le.mpr hidx)]
    exact ⟨_, rfl, Nat.mod_eq_of_lt index.isLt⟩

theorem set_parent_then_get_parent_witness :
    ∃ o, mtk_mux_upd_set_parent { scenario_mux 64 4 with upd_shift := 3 } 2 (fun _ => 5) = some o ∧
      o.ret = 0 ∧
      ∃ p, mtk_mux_upd_get_parent { scenario_mux 64 4 with upd_shift := 3 } o.regs = some p ∧
        p.ret = (2 : Fin 256).val :=
  set_parent_then_get_parent { scenario_mux 64 4 with upd_shift := 3 } (fun _ => 5) 2
    (by decide) (by decide) (by decide) (by decide) (by decide) (by decide) (by decide)

/-- C2, as stated, fails: on the scenario instance (`num_parents = 3`) with
all registers 0, `mtk_mux_upd_set_parent` with index 3 returns 0 and stores 3
in the select register. -/
theorem set_parent_index_unchecked_example :
    (scenario_mux 64 4).hw.num_parents ≤ (3 : Fin 256).val ∧
      (mtk_mux_upd_set_parent (scenario_mux 64 4) 3 (fun _ => 0)).map
          (fun o => (o.ret, o.trace, o.regs 64))
        = some (0, [Access.read 64, Access.write 64 3], 3) := by
  decide

/-- C2, amended. `mtk_mux_upd_set_parent` does not compare the index with
`num_parents`: for an index at or above `num_parents` (shift and width in the
range where the shifts of the source are defined: `0 ≤ mux_shift ≤ 31`,
`0 ≤ mux_width ≤ 31`) it returns 0, never an error;
it issues no store and leaves the registers as they were exactly when the
value it computes, `(old & ~(mask << shift)) | (index << shift)`, equals the
value read, and otherwise its first store puts that value in the select
register. -/
theorem set_parent_index_unchecked (mux : mtk_mux_upd_data) (regs : RegFile) (index : Fin 256)
    (hshift : 0 ≤ mux.mux_shift) (hs31 : mux.mux_shift ≤ 31)
    (hw0 : 0 ≤ mux.mux_width) (hw31 : mux.mux_width ≤ 31)
    (_hidx : mux.hw.num_parents ≤ index.val) :
    ∃ o, mtk_mux_upd_set_parent mux index regs = some o ∧ o.ret = 0 ∧
      ((clk_readl regs mux.mux_ofs
            &&& not32 (((2 ^ mux.mux_width.toNat - 1) <<< mux.mux_shift.toNat) % 2 ^ 32))
          ||| ((index.val <<< mux.mux_shift.toNat) % 2 ^ 32) = clk_readl regs mux.mux_ofs →
        writes o.trace = [] ∧ o.regs = regs) ∧
      ((clk_readl regs mux.mux_ofs
            &&& not32 (((2 ^ mux.mux_width.toNat - 1) <<< mux.mux_shift.toNat) % 2 ^ 32))
          ||| ((index.val <<< mux.mux_shift.toNat) % 2 ^ 32) ≠ clk_readl regs mux.mux_ofs →
        (writes o.trace).head? = some (mux.mux_ofs,
          (clk_readl regs mux.mux_ofs
            &&& not32 (((2 ^ mux.mux_width.toNat - 1) <<< mux.mux_shift.toNat) % 2 ^ 32))
          ||| ((index.val <<< mux.mux_shift.toNat) % 2 ^ 32))) := by
  obtain ⟨s, hs⟩ := Int.eq_ofNat_of_zero_le hshift
  obtain ⟨w, hw⟩ := Int.eq_ofNat_of_zero_le hw0
  have hw31n : w ≤ 31 := by rw [hw] at hw31; omega
  have hs31n : s ≤ 31 := by rw [hs] at hs31; omega
  have hval : (clk_readl regs mux.mux_ofs &&& not32 (((2 ^ w - 1) <<< s) % 2 ^ 32))
      ||| ((index.val <<< s) % 2 ^ 32) < 2 ^ 32 :=
    or_lt_two_pow32 (and_lt_two_pow32 _ (clk_readl_lt _ _)) (Nat.mod_lt _ (by decide))
  rw [set_parent_eq mux index regs s w hs hw hs31n hw31n, write_back_eq, hs, hw]
  simp only [Int.toNat_ofNat]
  refine ⟨_, rfl, rfl, ?_, ?_⟩
  · intro h
    rw [if_neg (not_not.mpr h)]
    exact ⟨rfl, rfl⟩
  · intro h
    rw [if_pos h]
    by_cases hu : mux.upd_shift > 0
    · rw [if_pos hu]
      simp only [Option.map_some', writes, List.head?_cons, Nat.mod_eq_of_lt hval]
    · rw [if_neg hu]
      simp only [Option.map_some', writes, List.head?_cons, Nat.mod_eq_of_lt hval]

theorem set_parent_index_unchecked_witness :
    (0 ≤ (scenario_mux 64 4).mux_shift ∧ (scenario_mux 64 4).mux_shift ≤ 31 ∧
      0 ≤ (scenario_mux 64 4).mux_width ∧ (scenario_mux 64 4).mux_width ≤ 31 ∧
      (scenario_mux 64 4).hw.num_parents ≤ (3 : Fin 256).val) ∧
    ∃ o, mtk_mux_upd_set_parent (scenario_mux 64 4) 3 (fun _ => 0) = some o ∧ o.ret = 0 :=
  ⟨by decide,
    (set_parent_index_unchecked (scenario_mux 64 4) (fun _ => 0) 3
      (by decide) (by decide) (by decide) (by decide) (by decide)).imp
      fun _ h => ⟨h.1, h.2.1⟩⟩

/-- C3 at the failing input: with `upd_shift = 0` (the update bit of the
spec's scenario) each of the three mutating operations stores the new value
in the select register and then stores nothing in the update register. -/
theorem update_pulse_missing_at_bit_zero :
    (scenario_mux 64 4).upd_shift = 0 ∧
    (mtk_mux_upd_set_parent (scenario_mux 64 4) 2 (fun _ => 0)).map (fun o => o.trace)
      = some [Access.read 64, Access.write 64 2] ∧
    (mtk_mux_upd_disable (scenario_mux 64 4) (fun _ => 2)).map (fun o => o.trace)
      = some [Access.read 64, Access.write 64 6] ∧
    (mtk_mux_upd_enable (scenario_mux 64 4) (fun _ => 6)).map (fun o => o.trace)
      = some [Access.read 64, Access.write 64 2] := by
  decide

/-- C5. With a gate bit configured (`0 ≤ gate_shift ≤ 31`) and the update
register at another offset than the select register, whatever the registers
hold: `mtk_mux_upd_is_enabled` on the registers left by `mtk_mux_upd_enable`
returns true, and on the registers left by `mtk_mux_upd_disable` returns
false. -/
theorem enable_disable_then_is_enabled (mux : mtk_mux_upd_data) (regs : RegFile)
    (hg0 : 0 ≤ mux.gate_shift) (hg31 : mux.gate_shift ≤ 31)
    (hofs : mux.upd_ofs ≠ mux.mux_ofs) :
    (∃ o, mtk_mux_upd_enable mux regs = some o ∧ o.ret = 0 ∧
      ∃ p, mtk_mux_upd_is_enabled mux o.regs = some p ∧ p.ret = true) ∧
    (∃ o, mtk_mux_upd_disable mux regs = some o ∧
      ∃ p, mtk_mux_upd_is_enabled mux o.regs = some p ∧ p.ret = false) := by
  obtain ⟨g, hg⟩ := Int.eq_ofNat_of_zero_le hg0
  have hg32 : g < 32 := by rw [hg] at hg31; omega
  constructor
  · obtain ⟨r, t, hwb, hread⟩ := write_back_readl mux regs
      (clk_readl regs mux.mux_ofs &&& not32 (2 ^ g)) hofs
      (and_lt_two_pow32 _ (clk_readl_lt _ _))
    refine ⟨{ ret := 0, regs := r, trace := Access.read mux.mux_ofs :: t }, ?_, rfl, ?_⟩
    · rw [enable_eq mux regs g hg, hwb]; rfl
    · rw [is_enabled_eq mux r g hg, hread]
      exact ⟨_, rfl, decide_eq_true (and_not32_and_two_pow _ g)⟩
  · obtain ⟨r, t, hwb, hread⟩ := write_back_readl mux regs
      ((clk_readl regs mux.mux_ofs ||| 2 ^ g) % 2 ^ 32) hofs (Nat.mod_lt _ (by decide))
    refine ⟨{ ret := (), regs := r, trace := Access.read mux.mux_ofs :: t }, ?_, ?_⟩
    · rw [disable_eq mux regs g hg, hwb]; rfl
    · rw [is_enabled_eq mux r g hg, hread]
      exact ⟨_, rfl, decide_eq_false (or_two_pow_and_two_pow _ g hg32)⟩

theorem enable_disable_then_is_enabled_witness :
    (∃ o, mtk_mux_upd_enable { scenario_mux 64 4 with upd_shift := 3 } (fun _ => 7) = some o ∧
      o.ret = 0 ∧
      ∃ p, mtk_mux_upd_is_enabled { scenario_mux 64 4 with upd_shift := 3 } o.regs = some p ∧
        p.ret = true) ∧
    (∃ o, mtk_mux_upd_disable { scenario_mux 64 4 with upd_shift := 3 } (fun _ => 7) = some o ∧
      ∃ p, mtk_mux_upd_is_enabled { scenario_mux 64 4 with upd_shift := 3 } o.regs = some p ∧
        p.ret = false) :=
  enable_disable_then_is_enabled { scenario_mux 64 4 with upd_shift := 3 } (fun _ => 7)
    (by decide) (by decide) (by decide)

/-- C6. Write only if changed: on an instance whose select field lies inside
the register (`mux_shift ≥ 0`, `mux_width ≥ 1`, `mux_shift + mux_width ≤ 32`),
when the select field read from the register already equals `index`,
`mtk_mux_upd_set_parent` returns 0 after the one load: it stores nothing,
neither in the select nor in the update register, and the registers are as
before. (An index that the field holds is below `2 ^ mux_width`, so this part
needs no hypothesis on the range of the index.) In particular, with
`num_parents ≤ 2 ^ mux_width`, an index below `num_parents` and the update
register at another offset, a second `mtk_mux_upd_set_parent` with the same
index, run on the registers the first one leaves, stores nothing. -/
theorem set_parent_same_index_no_write (mux : mtk_mux_upd_data) (regs : RegFile)
    (index : Fin 256)
    (hshift : 0 ≤ mux.mux_shift) (hwidth : 1 ≤ mux.mux_width)
    (hfit : mux.mux_shift + mux.mux_width ≤ 32) :
    ((clk_readl regs mux.mux_ofs >>> mux.mux_shift.toNat)
        &&& (2 ^ mux.mux_width.toNat - 1) = index.val →
      mtk_mux_upd_set_parent mux index regs =
        some { ret := 0, regs := regs, trace := [Access.read mux.mux_ofs] }) ∧
    (mux.hw.num_parents ≤ 2 ^ mux.mux_width.toNat → index.val < mux.hw.num_parents →
      mux.upd_ofs ≠ mux.mux_ofs →
      ∃ o, mtk_mux_upd_set_parent mux index regs = some o ∧
        mtk_mux_upd_set_parent mux index o.regs =
          some { ret := 0, regs := o.regs, trace := [Access.read mux.mux_ofs] }) := by
  obtain ⟨s, hs⟩ := Int.eq_ofNat_of_zero_le hshift
  obtain ⟨w, hw⟩ := Int.eq_ofNat_of_zero_le (le_trans (by decide) hwidth)
  have hsw : s + w ≤ 32 := by rw [hs, hw] at hfit; omega
  have hw1 : 1 ≤ w := by rw [hw] at hwidth; omega
  have hs31 : s ≤ 31 := by omega
  rw [hs, hw]
  simp only [Int.toNat_ofNat]
  by_cases hw31 : w ≤ 31
  · -- the mask has `w` bits
    have hkeep : ∀ r : RegFile, (clk_readl r mux.mux_ofs >>> s) &&& (2 ^ w - 1) = index.val →
        mtk_mux_upd_set_parent mux index r =
          some { ret := 0, regs := r, trace := [Access.read mux.mux_ofs] } := by
      intro r hcur
      rw [set_parent_eq mux index r s w hs hw hs31 hw31,
        field_keep _ _ s w (clk_readl_lt _ _) hcur, write_back_eq, if_neg (not_not.mpr rfl)]
      rfl
    refine ⟨hkeep regs, ?_⟩
    intro hnp hidx hofs
    obtain ⟨o, ho, _, hfield⟩ :=
      set_parent_field mux regs index s w hs hw hsw hs31 hw31 (lt_of_lt_of_le hidx hnp) hofs
    exact ⟨o, ho, hkeep o.regs hfield⟩
  · -- width 32 at shift 0: the mask is 0 and the index is or-ed in
    have hw32 : w = 32 := by omega
    have hs0 : s = 0 := by omega
    subst hw32 hs0
    have hkeep : ∀ r : RegFile, clk_readl r mux.mux_ofs ||| index.val = clk_readl r mux.mux_ofs →
        mtk_mux_upd_set_parent mux index r =
          some { ret := 0, regs := r, trace := [Access.read mux.mux_ofs] } := by
      intro r hcur
      rw [set_parent_full_eq mux index r hs hw, hcur, write_back_eq, if_neg (not_not.mpr rfl)]
      rfl
    refine ⟨fun hcur => hkeep regs ?_, ?_⟩
    · rw [Nat.shiftRight_zero, Nat.and_pow_two_sub_one_of_lt_two_pow (clk_readl_lt _ _)] at hcur
      rw [hcur, Nat.or_self]
    · intro _ _ hofs
      obtain ⟨r, t, hwb, hread⟩ := write_back_readl mux regs
        (clk_readl regs mux.mux_ofs ||| index.val) hofs
        (or_lt_two_pow32 (clk_readl_lt _ _) (lt_trans index.isLt (by decide)))
      refine ⟨{ ret := 0, regs := r, trace := Access.read mux.mux_ofs :: t }, ?_, hkeep r ?_⟩
      · rw [set_parent_full_eq mux index regs hs hw, hwb]
        rfl
      · rw [hread, Nat.or_assoc, Nat.or_self]

theorem set_parent_same_index_no_write_witness :
    mtk_mux_upd_set_parent { scenario_mux 64 4 with upd_shift := 3 } 1 (fun _ => 5) =
      some { ret := 0, regs := fun _ => 5, trace := [Access.read 64] } ∧
    ∃ o, mtk_mux_upd_set_parent { scenario_mux 64 4 with upd_shift := 3 } 1 (fun _ => 0) = some o ∧
      mtk_mux_upd_set_parent { scenario_mux 64 4 with upd_shift := 3 } 1 o.regs =
        some { ret := 0, regs := o.regs, trace := [Access.read 64] } :=
  ⟨(set_parent_same_index_no_write { scenario_mux 64 4 with upd_shift := 3 } (fun _ => 5) 1
      (by decide) (by decide) (by decide)).1 (by decide),
   (set_parent_same_index_no_write { scenario_mux 64 4 with upd_shift := 3 } (fun _ => 0) 1
      (by decide) (by decide) (by decide)).2 (by decide) (by decide) (by decide)⟩

/-- C7. Write only if changed, for the gate: with a gate bit configured
(`gate_shift ≥ 0`), `mtk_mux_upd_enable` on a register whose gate bit is
already clear, and `mtk_mux_upd_disable` on a register whose gate bit is
already set, issue the one load and no store, to neither register, and leave
the register region as it was. -/
theorem gate_unchanged_no_write (mux : mtk_mux_upd_data) (regs : RegFile)
    (hg0 : 0 ≤ mux.gate_shift) :
    ((clk_readl regs mux.mux_ofs).testBit mux.gate_shift.toNat = false →
      mtk_mux_upd_enable mux regs =
        some { ret := 0, regs := regs, trace := [Access.read mux.mux_ofs] }) ∧
    ((clk_readl regs mux.mux_ofs).testBit mux.gate_shift.toNat = true →
      mtk_mux_upd_disable mux regs =
        some { ret := (), regs := regs, trace := [Access.read mux.mux_ofs] }) := by
  obtain ⟨g, hg⟩ := Int.eq_ofNat_of_zero_le hg0
  rw [hg]
  simp only [Int.toNat_ofNat]
  constructor
  · intro hb
    rw [enable_eq mux regs g hg, and_not32_of_clear _ g (clk_readl_lt _ _) hb, write_back_eq,
      if_neg (not_not.mpr rfl)]
    rfl
  · intro hb
    rw [disable_eq mux regs g hg, or_two_pow_of_set _ g (clk_readl_lt _ _) hb, write_back_eq,
      if_neg (not_not.mpr rfl)]
    rfl

theorem gate_unchanged_no_write_witness :
    mtk_mux_upd_enable { scenario_mux 64 4 with upd_shift := 3 } (fun _ => 2) =
        some { ret := 0, regs := fun _ => 2, trace := [Access.read 64] } ∧
    mtk_mux_upd_disable { scenario_mux 64 4 with upd_shift := 3 } (fun _ => 6) =
        some { ret := (), regs := fun _ => 6, trace := [Access.read 64] } :=
  ⟨(gate_unchanged_no_write { scenario_mux 64 4 with upd_shift := 3 } (fun _ => 2)
      (by decide)).1 (by decide),
   (gate_unchanged_no_write { scenario_mux 64 4 with upd_shift := 3 } (fun _ => 6)
      (by decide)).2 (by decide)⟩

/-- C8. Without a gate bit (`gate_shift < 0`) `mtk_mux_upd_is_enabled` returns
true for every content of the register region, hence after any earlier calls,
and it does so without a single register access. -/
theorem is_enabled_without_gate (mux : mtk_mux_upd_data) (regs : RegFile)
    (hgate : mux.gate_shift < 0) :
    mtk_mux_upd_is_enabled mux regs = some { ret := true, regs := regs, trace := [] } := by
  unfold mtk_mux_upd_is_enabled
  rw [if_pos hgate]
  rfl

theorem is_enabled_without_gate_witness :
    mtk_mux_upd_is_enabled wide_mux (fun _ => 4294967295) =
      some { ret := true, regs := fun _ => 4294967295, trace := [] } :=
  is_enabled_without_gate wide_mux (fun _ => 4294967295) (by decide)

/-- C9. An instance described without a gate bit (`gate_shift < 0`) is
registered with the table `mtk_mux_upd_ops`, which has neither `enable` nor
`disable`; on the registered clock the enable and disable calls are therefore
no-ops for every content of the register region: no access is issued, the
region (select and update register included) is unchanged, and enable
reports 0. -/
theorem ungated_enable_disable_noop (mu : mtk_mux_upd) (hgate : mu.gate_shift < 0) :
    ∃ c, mtk_clk_register_mux_upd mu true none = Except.ok c ∧
      c.data.gate_shift = mu.gate_shift ∧
      c.ops.enable.isNone = true ∧ c.ops.disable.isNone = true ∧
      ∀ regs : RegFile,
        clk_enable c regs = some { ret := 0, regs := regs, trace := [] } ∧
        clk_disable c regs = some { ret := (), regs := regs, trace := [] } := by
  refine ⟨{ ops := mtk_mux_upd_ops,
            data := { hw := { num_parents := mu.num_parents }
                      mux_ofs := mu.mux_ofs
                      upd_ofs := mu.upd_ofs
                      mux_shift := mu.mux_shift
                      mux_width := mu.mux_width
                      gate_shift := mu.gate_shift
                      upd_shift := mu.upd_shift } }, ?_, rfl, rfl, rfl, ?_⟩
  · unfold mtk_clk_register_mux_upd
    simp only [Bool.not_true, if_pos hgate]
    rfl
  · intro regs
    exact ⟨rfl, rfl⟩

theorem ungated_enable_disable_noop_witness :
    ∃ c, mtk_clk_register_mux_upd
        { id := 1, num_parents := 3, mux_ofs := 64, upd_ofs := 4, mux_shift := 0,
          mux_width := 2, gate_shift := -1, upd_shift := 3 } true none = Except.ok c ∧
      ∀ regs : RegFile,
        clk_enable c regs = some { ret := 0, regs := regs, trace := [] } ∧
        clk_disable c regs = some { ret := (), regs := regs, trace := [] } :=
  (ungated_enable_disable_noop
    { id := 1, num_parents := 3, mux_ofs := 64, upd_ofs := 4, mux_shift := 0,
      mux_width := 2, gate_shift := -1, upd_shift := 3 } (by decide)).imp
    fun _ h => ⟨h.1, h.2.2.2.2⟩

/-- C10. The spec's scenario (`selectShift=0, selectWidth=2, gateBit=2,
updateBit=0, numParents=3`, at any pair of offsets), started with the select
register at 0: `set_parent(2)` leaves the select register at `0b010`, then
`disable` leaves it at `0b110`, then `is_enabled` returns false, then `enable`
leaves the register at `0b010`, then `get_parent` returns 2. -/
theorem scenario_sequence (mux_ofs upd_ofs : Nat) (regs : RegFile)
    (h0 : clk_readl regs mux_ofs = 0) :
    ∃ o1 o2 o3 o4 o5,
      mtk_mux_upd_set_parent (scenario_mux mux_ofs upd_ofs) 2 regs = some o1 ∧
      o1.ret = 0 ∧ clk_readl o1.regs mux_ofs = 2 ∧
      mtk_mux_upd_disable (scenario_mux mux_ofs upd_ofs) o1.regs = some o2 ∧
      clk_readl o2.regs mux_ofs = 6 ∧
      mtk_mux_upd_is_enabled (scenario_mux mux_ofs upd_ofs) o2.regs = some o3 ∧
      o3.ret = false ∧
      mtk_mux_upd_enable (scenario_mux mux_ofs upd_ofs) o3.regs = some o4 ∧
      o4.ret = 0 ∧ clk_readl o4.regs mux_ofs = 2 ∧
      mtk_mux_upd_get_parent (scenario_mux mux_ofs upd_ofs) o4.regs = some o5 ∧
      o5.ret = 2 := by
  have r1 : clk_readl (clk_writel 2 mux_ofs regs) mux_ofs = 2 := clk_readl_writel_same _ _ _
  have r2 : clk_readl (clk_writel 6 mux_ofs (clk_writel 2 mux_ofs regs)) mux_ofs = 6 :=
    clk_readl_writel_same _ _ _
  have r3 : clk_readl
      (clk_writel 2 mux_ofs (clk_writel 6 mux_ofs (clk_writel 2 mux_ofs regs))) mux_ofs = 2 :=
    clk_readl_writel_same _ _ _
  refine ⟨{ ret := 0, regs := clk_writel 2 mux_ofs regs,
            trace := [Access.read mux_ofs, Access.write mux_ofs 2] },
          { ret := (), regs := clk_writel 6 mux_ofs (clk_writel 2 mux_ofs regs),
            trace := [Access.read mux_ofs, Access.write mux_ofs 6] },
          { ret := false, regs := clk_writel 6 mux_ofs (clk_writel 2 mux_ofs regs),
            trace := [Access.read mux_ofs] },
          { ret := 0,
            regs := clk_writel 2 mux_ofs (clk_writel 6 mux_ofs (clk_writel 2 mux_ofs regs)),
            trace := [Access.read mux_ofs, Access.write mux_ofs 2] },
          { ret := 2,
            regs := clk_writel 2 mux_ofs (clk_writel 6 mux_ofs (clk_writel 2 mux_ofs regs)),
            trace := [Access.read mux_ofs] },
          ?_, rfl, r1, ?_, r2, ?_, rfl, ?_, rfl, r3, ?_, rfl⟩
  · rw [set_parent_eq (scenario_mux mux_ofs upd_ofs) 2 regs 0 2 rfl rfl (by decide) (by decide),
      write_back_eq]
    dsimp only [scenario_mux]
    rw [h0]
    rfl
  · rw [disable_eq (scenario_mux mux_ofs upd_ofs) _ 2 rfl, write_back_eq]
    dsimp only [scenario_mux]
    rw [r1]
    rfl
  · rw [is_enabled_eq (scenario_mux mux_ofs upd_ofs) _ 2 rfl]
    dsimp only [scenario_mux]
    rw [r2]
    rfl
  · rw [enable_eq (scenario_mux mux_ofs upd_ofs) _ 2 rfl, write_back_eq]
    dsimp only [scenario_mux]
    rw [r2]
    rfl
  · rw [get_parent_eq (scenario_mux mux_ofs upd_ofs) _ 0 2 rfl rfl (by decide) (by decide)]
    dsimp only [scenario_mux]
    rw [r3]
    rfl

theorem scenario_sequence_witness :
    ∃ o1 o2 o3 o4 o5,
      mtk_mux_upd_set_parent (scenario_mux 64 4) 2 (fun _ => 0) = some o1 ∧
      o1.ret = 0 ∧ clk_readl o1.regs 64 = 2 ∧
      mtk_mux_upd_disable (scenario_mux 64 4) o1.regs = some o2 ∧
      clk_readl o2.regs 64 = 6 ∧
      mtk_mux_upd_is_enabled (scenario_mux 64 4) o2.regs = some o3 ∧
      o3.ret = false ∧
      mtk_mux_upd_enable (scenario_mux 64 4) o3.regs = some o4 ∧
      o4.ret = 0 ∧ clk_readl o4.regs 64 = 2 ∧
      mtk_mux_upd_get_parent (scenario_mux 64 4) o4.regs = some o5 ∧
      o5.ret = 2 :=
  scenario_sequence 64 4 (fun _ => 0) (by decide)

/-- C11 at the failing input, a select width of 32: on `full_width_mux`
(shift 0, width 32, 200 parents) with the select register holding 5,
`mtk_mux_upd_set_parent` with index 2 leaves 7 in the select register, while
`(old AND NOT((2 ^ 32 - 1) << 0)) OR (2 << 0)` is 2: `GENMASK(31, 0)` shifts a
32-bit 1 by 32, the mask comes out 0 and no bit of the old value is cleared. -/
theorem set_parent_frame_full_width_example :
    (0 ≤ full_width_mux.mux_shift ∧ 1 ≤ full_width_mux.mux_width ∧
      full_width_mux.mux_shift + full_width_mux.mux_width ≤ 32 ∧
      full_width_mux.hw.num_parents ≤ 2 ^ full_width_mux.mux_width.toNat ∧
      (2 : Fin 256).val < full_width_mux.hw.num_parents) ∧
    (mtk_mux_upd_set_parent full_width_mux 2 (fun _ => 5)).map
        (fun o => clk_readl o.regs full_width_mux.mux_ofs) = some 7 ∧
    (clk_readl (fun _ => 5) full_width_mux.mux_ofs
        &&& not32 ((2 ^ full_width_mux.mux_width.toNat - 1) <<< full_width_mux.mux_shift.toNat))
      ||| ((2 : Fin 256).val <<< full_width_mux.mux_shift.toNat) = 2 := by
  decide

/-- Frame of `mtk_mux_upd_set_parent` below the full width: on an instance with
`mux_shift ≥ 0`, `1 ≤ mux_width ≤ 31`, `mux_shift + mux_width ≤ 32`,
`num_parents ≤ 2 ^ mux_width` and the update register at another offset than
the select register, for every old content and every index below
`num_parents` the call returns 0 and the select register then holds
`(old AND NOT((2 ^ mux_width - 1) << mux_shift)) OR (index << mux_shift)`:
bit `j` is bit `j - mux_shift` of the index for `j` inside the field and the
old bit `j` for every `j` outside it. -/
theorem set_parent_frame (mux : mtk_mux_upd_data) (regs : RegFile) (index : Fin 256)
    (hshift : 0 ≤ mux.mux_shift) (hwidth : 1 ≤ mux.mux_width) (hw31 : mux.mux_width ≤ 31)
    (hfit : mux.mux_shift + mux.mux_width ≤ 32)
    (hnp : mux.hw.num_parents ≤ 2 ^ mux.mux_width.toNat)
    (hidx : index.val < mux.hw.num_parents)
    (hofs : mux.upd_ofs ≠ mux.mux_ofs) :
    ∃ o, mtk_mux_upd_set_parent mux index regs = some o ∧ o.ret = 0 ∧
      clk_readl o.regs mux.mux_ofs =
        (clk_readl regs mux.mux_ofs
            &&& not32 ((2 ^ mux.mux_width.toNat - 1) <<< mux.mux_shift.toNat))
          ||| (index.val <<< mux.mux_shift.toNat) ∧
      ∀ j, (clk_readl o.regs mux.mux_ofs).testBit j =
        if mux.mux_shift.toNat ≤ j ∧ j < mux.mux_shift.toNat + mux.mux_width.toNat then
          index.val.testBit (j - mux.mux_shift.toNat)
        else (clk_readl regs mux.mux_ofs).testBit j := by
  obtain ⟨s, hs⟩ := Int.eq_ofNat_of_zero_le hshift
  obtain ⟨w, hw⟩ := Int.eq_ofNat_of_zero_le (le_trans (by decide) hwidth)
  have hsw : s + w ≤ 32 := by rw [hs, hw] at hfit; omega
  have hw1 : 1 ≤ w := by rw [hw] at hwidth; omega
  have hs31 : s ≤ 31 := by omega
  have hw31n : w ≤ 31 := by rw [hw] at hw31; omega
  rw [hw] at hnp
  rw [hs, hw]
  simp only [Int.toNat_ofNat] at hnp ⊢
  have hiw : index.val < 2 ^ w := lt_of_lt_of_le hidx hnp
  have hm : ((2 ^ w - 1) <<< s) % 2 ^ 32 = (2 ^ w - 1) <<< s :=
    Nat.mod_eq_of_lt (shiftLeft_lt_two_pow32 _ s w
      (Nat.sub_lt (Nat.two_pow_pos w) (by decide)) hsw)
  have hp : (index.val <<< s) % 2 ^ 32 = index.val <<< s :=
    Nat.mod_eq_of_lt (shiftLeft_lt_two_pow32 _ s w hiw hsw)
  have hval : (clk_readl regs mux.mux_ofs &&& not32 (((2 ^ w - 1) <<< s) % 2 ^ 32))
      ||| ((index.val <<< s) % 2 ^ 32) < 2 ^ 32 :=
    or_lt_two_pow32 (and_lt_two_pow32 _ (clk_readl_lt _ _)) (Nat.mod_lt _ (by decide))
  obtain ⟨r, t, hwb, hread⟩ := write_back_readl mux regs _ hofs hval
  refine ⟨{ ret := 0, regs := r, trace := Access.read mux.mux_ofs :: t }, ?_, rfl, ?_, ?_⟩
  · rw [set_parent_eq mux index regs s w hs hw hs31 hw31n, hwb]
    rfl
  · show clk_readl r mux.mux_ofs = _
    rw [hread, hm, hp]
  · intro j
    show (clk_readl r mux.mux_ofs).testBit j = _
    rw [hread]
    exact set_parent_bits _ _ s w j (clk_readl_lt _ _) hsw hiw

theorem set_parent_frame_witness :
    ∃ o, mtk_mux_upd_set_parent { scenario_mux 64 4 with mux_shift := 4, upd_shift := 3 } 2
        (fun _ => 4294967295) = some o ∧ o.ret = 0 ∧
      clk_readl o.regs 64 =
        (clk_readl (fun _ => 4294967295) 64
            &&& not32 ((2 ^ (2 : Int).toNat - 1) <<< (4 : Int).toNat))
          ||| ((2 : Fin 256).val <<< (4 : Int).toNat) :=
  (set_parent_frame { scenario_mux 64 4 with mux_shift := 4, upd_shift := 3 }
    (fun _ => 4294967295) 2
    (by decide) (by decide) (by decide) (by decide) (by decide) (by decide) (by decide)).imp
    fun _ h => ⟨h.1, h.2.1, h.2.2.1⟩

/-- C12. Non-interference on a shared select register: let `A` and `B` be two
instances with the same `mux_ofs`, each with its select field inside the
register (`mux_shift ≥ 0`, `mux_width ≥ 1`, `mux_shift + mux_width ≤ 32`),
`B` with `num_parents ≤ 2 ^ mux_width` and its update register at another
offset than the select register, and with disjoint bit ranges: the two select
fields do not overlap, a configured gate bit of one lies outside the select
field of the other, and two configured gate bits differ. Then every call on
`B` (enable or disable when `B` has a gate bit, `set_parent` with an index
below `B`'s `num_parents`, and the two queries) has a result, and on the
registers it leaves `mtk_mux_upd_get_parent` and `mtk_mux_upd_is_enabled` of
`A` return what they returned before. -/
theorem shared_register_noninterference (A B : mtk_mux_upd_data) (regs : RegFile) (c : mux_op)
    (hsame : A.mux_ofs = B.mux_ofs) (hofsB : B.upd_ofs ≠ B.mux_ofs)
    (hAs : 0 ≤ A.mux_shift) (hAw : 1 ≤ A.mux_width) (hAfit : A.mux_shift + A.mux_width ≤ 32)
    (hBs : 0 ≤ B.mux_shift) (hBw : 1 ≤ B.mux_width) (hBfit : B.mux_shift + B.mux_width ≤ 32)
    (hBnp : B.hw.num_parents ≤ 2 ^ B.mux_width.toNat)
    (hff : A.mux_shift + A.mux_width ≤ B.mux_shift ∨ B.mux_shift + B.mux_width ≤ A.mux_shift)
    (hgA : A.gate_shift < 0 ∨ A.gate_shift < B.mux_shift ∨
      B.mux_shift + B.mux_width ≤ A.gate_shift)
    (hgB : B.gate_shift < 0 ∨ B.gate_shift < A.mux_shift ∨
      A.mux_shift + A.mux_width ≤ B.gate_shift)
    (hgg : A.gate_shift < 0 ∨ B.gate_shift < 0 ∨ A.gate_shift ≠ B.gate_shift)
    (hc_gate : c = mux_op.enable ∨ c = mux_op.disable → 0 ≤ B.gate_shift)
    (hc_idx : ∀ index, c = mux_op.set_parent index → index.val < B.hw.num_parents) :
    ∃ r t, run_op B regs c = some (r, t) ∧
      (∃ p q, mtk_mux_upd_get_parent A regs = some p ∧ mtk_mux_upd_get_parent A r = some q ∧
        q.ret = p.ret) ∧
      (∃ p q, mtk_mux_upd_is_enabled A regs = some p ∧ mtk_mux_upd_is_enabled A r = some q ∧
        q.ret = p.ret) := by
  obtain ⟨sA, hsA⟩ := Int.eq_ofNat_of_zero_le hAs
  obtain ⟨wA, hwA⟩ := Int.eq_ofNat_of_zero_le (le_trans (by decide) hAw)
  obtain ⟨sB, hsB⟩ := Int.eq_ofNat_of_zero_le hBs
  obtain ⟨wB, hwB⟩ := Int.eq_ofNat_of_zero_le (le_trans (by decide) hBw)
  have hwA1 : 1 ≤ wA := by rw [hwA] at hAw; omega
  have hwB1 : 1 ≤ wB := by rw [hwB] at hBw; omega
  rw [hsA, hwA] at hAfit
  rw [hsB, hwB] at hBfit
  rw [hwB] at hBnp
  simp only [Int.toNat_ofNat] at hBnp
  rw [hsA, hwA, hsB, hwB] at hff
  rw [hsB, hwB] at hgA
  rw [hsA, hwA] at hgB
  -- what `A` looks at: the bits of its field and its gate bit
  have hfin : ∀ r : RegFile,
      (∀ j, (sA ≤ j ∧ j < sA + wA) ∨ (0 ≤ A.gate_shift ∧ (j : Int) = A.gate_shift) →
        (clk_readl r B.mux_ofs).testBit j = (clk_readl regs B.mux_ofs).testBit j) →
      (∃ p q, mtk_mux_upd_get_parent A regs = some p ∧ mtk_mux_upd_get_parent A r = some q ∧
        q.ret = p.ret) ∧
      (∃ p q, mtk_mux_upd_is_enabled A regs = some p ∧ mtk_mux_upd_is_enabled A r = some q ∧
        q.ret = p.ret) := by
    intro r hbits
    rw [← hsame] at hbits
    refine ⟨get_parent_ret_congr A regs r sA wA hsA hwA (by omega) (by omega)
        (fun j hj => hbits (sA + j) (Or.inl ⟨by omega, by omega⟩)),
      is_enabled_ret_congr A regs r (fun hg => hbits _ (Or.inr ⟨hg, ?_⟩))⟩
    exact Int.toNat_of_nonneg hg
  cases c with
  | enable =>
    have hg0 : 0 ≤ B.gate_shift := hc_gate (Or.inl rfl)
    obtain ⟨gB, hgB2⟩ := Int.eq_ofNat_of_zero_le hg0
    rw [hgB2] at hgB hgg
    obtain ⟨r, t, hwb, hread⟩ := write_back_readl B regs
      (clk_readl regs B.mux_ofs &&& not32 (2 ^ gB)) hofsB
      (and_lt_two_pow32 _ (clk_readl_lt _ _))
    refine ⟨r, Access.read B.mux_ofs :: t, ?_, hfin r ?_⟩
    · show Option.map _ (mtk_mux_upd_enable B regs) = _
      rw [enable_eq B regs gB hgB2, hwb]
      rfl
    · intro j hj
      rw [hread, enable_bits _ gB j (clk_readl_lt _ _)]
      have hne : j ≠ gB := by
        rcases hj with hj | ⟨hj1, hj2⟩
        · omega
        · omega
      simp [hne]
  | disable =>
    have hg0 : 0 ≤ B.gate_shift := hc_gate (Or.inr rfl)
    obtain ⟨gB, hgB2⟩ := Int.eq_ofNat_of_zero_le hg0
    rw [hgB2] at hgB hgg
    obtain ⟨r, t, hwb, hread⟩ := write_back_readl B regs
      ((clk_readl regs B.mux_ofs ||| 2 ^ gB) % 2 ^ 32) hofsB (Nat.mod_lt _ (by decide))
    refine ⟨r, Access.read B.mux_ofs :: t, ?_, hfin r ?_⟩
    · show Option.map _ (mtk_mux_upd_disable B regs) = _
      rw [disable_eq B regs gB hgB2, hwb]
      rfl
    · intro j hj
      rw [hread]
      have hne : j ≠ gB := by
        rcases hj with hj | ⟨hj1, hj2⟩
        · omega
        · omega
      exact disable_bits_ne _ gB j (clk_readl_lt _ _) hne
  | set_parent index =>
    have hidx : index.val < B.hw.num_parents := hc_idx index rfl
    have hiw : index.val < 2 ^ wB := lt_of_lt_of_le hidx hBnp
    have hsw : sB + wB ≤ 32 := by omega
    have hval : (clk_readl regs B.mux_ofs &&& not32 (((2 ^ wB - 1) <<< sB) % 2 ^ 32))
        ||| ((index.val <<< sB) % 2 ^ 32) < 2 ^ 32 :=
      or_lt_two_pow32 (and_lt_two_pow32 _ (clk_readl_lt _ _)) (Nat.mod_lt _ (by decide))
    obtain ⟨r, t, hwb, hread⟩ := write_back_readl B regs _ hofsB hval
    refine ⟨r, Access.read B.mux_ofs :: t, ?_, hfin r ?_⟩
    · show Option.map _ (mtk_mux_upd_set_parent B index regs) = _
      rw [set_parent_eq B index regs sB wB hsB hwB (by omega) (by omega), hwb]
      rfl
    · intro j hj
      rw [hread, set_parent_bits _ _ sB wB j (clk_readl_lt _ _) hsw hiw]
      have hout : ¬ (sB ≤ j ∧ j < sB + wB) := by
        rcases hj with hj | ⟨hj1, hj2⟩
        · omega
        · omega
      rw [if_neg hout]
  | is_enabled =>
    obtain ⟨p, -, hp, -, -⟩ := is_enabled_ret_congr B regs regs (fun _ => rfl)
    refine ⟨regs, p.trace, ?_, hfin regs (fun _ _ => rfl)⟩
    show Option.map _ (mtk_mux_upd_is_enabled B regs) = _
    rw [hp, (is_enabled_some B regs p hp).1.symm]
    rfl
  | get_parent =>
    obtain ⟨p, -, hp, -, -⟩ := get_parent_ret_congr B regs regs sB wB hsB hwB (by omega)
      (by omega) (fun _ _ => rfl)
    refine ⟨regs, p.trace, ?_, hfin regs (fun _ _ => rfl)⟩
    show Option.map _ (mtk_mux_upd_get_parent B regs) = _
    rw [hp, (get_parent_some B regs p hp).1.symm]
    rfl

theorem shared_register_noninterference_witness :
    ∃ r t, run_op { scenario_mux 64 8 with mux_shift := 4, gate_shift := 7, upd_shift := 3 }
        (fun _ => 5) (mux_op.set_parent 2) = some (r, t) ∧
      (∃ p q, mtk_mux_upd_get_parent (scenario_mux 64 4) (fun _ => 5) = some p ∧
        mtk_mux_upd_get_parent (scenario_mux 64 4) r = some q ∧ q.ret = p.ret) ∧
      (∃ p q, mtk_mux_upd_is_enabled (scenario_mux 64 4) (fun _ => 5) = some p ∧
        mtk_mux_upd_is_enabled (scenario_mux 64 4) r = some q ∧ q.ret = p.ret) :=
  shared_register_noninterference (scenario_mux 64 4)
    { scenario_mux 64 8 with mux_shift := 4, gate_shift := 7, upd_shift := 3 }
    (fun _ => 5) (mux_op.set_parent 2)
    (by decide) (by decide) (by decide) (by decide) (by decide) (by decide) (by decide)
    (by decide) (by decide) (by decide) (by decide) (by decide) (by decide) (by decide)
    (fun index h => by
      have e := mux_op.set_parent.inj h
      subst e
      decide)

/-- C13. Frame of the gate operations: with a gate bit configured
(`0 ≤ gate_shift ≤ 31`) and the update register at another offset than the
select register, for every old content: after `mtk_mux_upd_enable` the select
register holds `old AND NOT(1 << gate_shift)`, after `mtk_mux_upd_disable` it
holds `old OR (1 << gate_shift)`, and in both cases every bit other than the
gate bit is the old bit; so when the gate bit lies outside the select field
(field inside the register), `mtk_mux_upd_get_parent` returns after the call
what it returned before. -/
theorem gate_frame (mux : mtk_mux_upd_data) (regs : RegFile)
    (hg0 : 0 ≤ mux.gate_shift) (hg31 : mux.gate_shift ≤ 31)
    (hofs : mux.upd_ofs ≠ mux.mux_ofs) :
    (∃ o, mtk_mux_upd_enable mux regs = some o ∧
      clk_readl o.regs mux.mux_ofs
        = clk_readl regs mux.mux_ofs &&& not32 (1 <<< mux.gate_shift.toNat) ∧
      (∀ j, j ≠ mux.gate_shift.toNat →
        (clk_readl o.regs mux.mux_ofs).testBit j = (clk_readl regs mux.mux_ofs).testBit j) ∧
      (0 ≤ mux.mux_shift → 1 ≤ mux.mux_width → mux.mux_shift + mux.mux_width ≤ 32 →
        (mux.gate_shift < mux.mux_shift ∨ mux.mux_shift + mux.mux_width ≤ mux.gate_shift) →
        ∃ p q, mtk_mux_upd_get_parent mux regs = some p ∧
          mtk_mux_upd_get_parent mux o.regs = some q ∧ q.ret = p.ret)) ∧
    (∃ o, mtk_mux_upd_disable mux regs = some o ∧
      clk_readl o.regs mux.mux_ofs
        = clk_readl regs mux.mux_ofs ||| (1 <<< mux.gate_shift.toNat) ∧
      (∀ j, j ≠ mux.gate_shift.toNat →
        (clk_readl o.regs mux.mux_ofs).testBit j = (clk_readl regs mux.mux_ofs).testBit j) ∧
      (0 ≤ mux.mux_shift → 1 ≤ mux.mux_width → mux.mux_shift + mux.mux_width ≤ 32 →
        (mux.gate_shift < mux.mux_shift ∨ mux.mux_shift + mux.mux_width ≤ mux.gate_shift) →
        ∃ p q, mtk_mux_upd_get_parent mux regs = some p ∧
          mtk_mux_upd_get_parent mux o.regs = some q ∧ q.ret = p.ret)) := by
  obtain ⟨g, hg⟩ := Int.eq_ofNat_of_zero_le hg0
  have hg32 : g < 32 := by rw [hg] at hg31; omega
  have hget : ∀ r : RegFile,
      (∀ j, j ≠ g → (clk_readl r mux.mux_ofs).testBit j = (clk_readl regs mux.mux_ofs).testBit j) →
      0 ≤ mux.mux_shift → 1 ≤ mux.mux_width → mux.mux_shift + mux.mux_width ≤ 32 →
      ((g : Int) < mux.mux_shift ∨ mux.mux_shift + mux.mux_width ≤ (g : Int)) →
      ∃ p q, mtk_mux_upd_get_parent mux regs = some p ∧
        mtk_mux_upd_get_parent mux r = some q ∧ q.ret = p.ret := by
    intro r hbits hshift hwidth hfit hout
    obtain ⟨s, hs⟩ := Int.eq_ofNat_of_zero_le hshift
    obtain ⟨w, hw⟩ := Int.eq_ofNat_of_zero_le (le_trans (by decide) hwidth)
    rw [hs, hw] at hfit
    rw [hs, hw] at hout
    rw [hw] at hwidth
    exact get_parent_ret_congr mux regs r s w hs hw (by omega) (by omega)
      (fun j hj => hbits (s + j) (by omega))
  rw [hg]
  simp only [Int.toNat_ofNat, Nat.one_shiftLeft]
  constructor
  · obtain ⟨r, t, hwb, hread⟩ := write_back_readl mux regs
      (clk_readl regs mux.mux_ofs &&& not32 (2 ^ g)) hofs
      (and_lt_two_pow32 _ (clk_readl_lt _ _))
    have hbits : ∀ j, j ≠ g →
        (clk_readl r mux.mux_ofs).testBit j = (clk_readl regs mux.mux_ofs).testBit j := by
      intro j hj
      rw [hread, enable_bits _ g j (clk_readl_lt _ _)]
      simp [hj]
    refine ⟨{ ret := 0, regs := r, trace := Access.read mux.mux_ofs :: t }, ?_, hread, hbits,
      hget r hbits⟩
    rw [enable_eq mux regs g hg, hwb]
    rfl
  · obtain ⟨r, t, hwb, hread⟩ := write_back_readl mux regs
      ((clk_readl regs mux.mux_ofs ||| 2 ^ g) % 2 ^ 32) hofs (Nat.mod_lt _ (by decide))
    have hbits : ∀ j, j ≠ g →
        (clk_readl r mux.mux_ofs).testBit j = (clk_readl regs mux.mux_ofs).testBit j := by
      intro j hj
      rw [hread]
      exact disable_bits_ne _ g j (clk_readl_lt _ _) hj
    refine ⟨{ ret := (), regs := r, trace := Access.read mux.mux_ofs :: t }, ?_, ?_, hbits,
      hget r hbits⟩
    · rw [disable_eq mux regs g hg, hwb]
      rfl
    · show clk_readl r mux.mux_ofs = _
      rw [hread]
      exact Nat.mod_eq_of_lt (or_two_pow_lt _ g (clk_readl_lt _ _) hg32)

theorem gate_frame_witness :
    (∃ o, mtk_mux_upd_enable { scenario_mux 64 4 with upd_shift := 3 } (fun _ => 7) = some o ∧
      clk_readl o.regs 64 = clk_readl (fun _ => 7) 64 &&& not32 (1 <<< (2 : Int).toNat)) ∧
    (∃ o, mtk_mux_upd_disable { scenario_mux 64 4 with upd_shift := 3 } (fun _ => 1) = some o ∧
      clk_readl o.regs 64 = clk_readl (fun _ => 1) 64 ||| (1 <<< (2 : Int).toNat) ∧
      ∃ p q, mtk_mux_upd_get_parent { scenario_mux 64 4 with upd_shift := 3 } (fun _ => 1)
          = some p ∧
        mtk_mux_upd_get_parent { scenario_mux 64 4 with upd_shift := 3 } o.regs = some q ∧
        q.ret = p.ret) :=
  ⟨(gate_frame { scenario_mux 64 4 with upd_shift := 3 } (fun _ => 7)
      (by decide) (by decide) (by decide)).1.imp fun _ h => ⟨h.1, h.2.1⟩,
   (gate_frame { scenario_mux 64 4 with upd_shift := 3 } (fun _ => 1)
      (by decide) (by decide) (by decide)).2.imp fun _ h =>
        ⟨h.1, h.2.1, h.2.2.2 (by decide) (by decide) (by decide) (by decide)⟩⟩

/-- C14. Gate polarity: with a gate bit configured (`gate_shift ≥ 0`, in
particular a bit position 0..31) `mtk_mux_upd_is_enabled` has a result for
every register content, and the
result is true exactly when bit `gate_shift` of the select register is clear;
two register contents that agree on that bit give the same result, whatever
the other bits are. -/
theorem is_enabled_iff_gate_clear (mux : mtk_mux_upd_data) (regs : RegFile)
    (hg0 : 0 ≤ mux.gate_shift) :
    ∃ p, mtk_mux_upd_is_enabled mux regs = some p ∧
      (p.ret = true ↔ (clk_readl regs mux.mux_ofs).testBit mux.gate_shift.toNat = false) ∧
      ∀ regs2 : RegFile,
        (clk_readl regs2 mux.mux_ofs).testBit mux.gate_shift.toNat
          = (clk_readl regs mux.mux_ofs).testBit mux.gate_shift.toNat →
        ∃ q, mtk_mux_upd_is_enabled mux regs2 = some q ∧ q.ret = p.ret := by
  obtain ⟨g, hg⟩ := Int.eq_ofNat_of_zero_le hg0
  rw [hg]
  simp only [Int.toNat_ofNat]
  rw [is_enabled_eq mux regs g hg]
  refine ⟨_, rfl, ?_, ?_⟩
  · show decide (clk_readl regs mux.mux_ofs &&& 2 ^ g = 0) = true ↔ _
    rw [decide_eq_true_iff]
    exact and_two_pow_eq_zero_iff _ g
  · intro regs2 hbit
    rw [is_enabled_eq mux regs2 g hg]
    refine ⟨_, rfl, ?_⟩
    show decide (clk_readl regs2 mux.mux_ofs &&& 2 ^ g = 0)
      = decide (clk_readl regs mux.mux_ofs &&& 2 ^ g = 0)
    rw [decide_eq_decide, and_two_pow_eq_zero_iff, and_two_pow_eq_zero_iff, hbit]

theorem is_enabled_iff_gate_clear_witness :
    ∃ p, mtk_mux_upd_is_enabled (scenario_mux 64 4) (fun _ => 3) = some p ∧
      (p.ret = true ↔ (clk_readl (fun _ => 3) 64).testBit (2 : Int).toNat = false) :=
  (is_enabled_iff_gate_clear (scenario_mux 64 4) (fun _ => 3) (by decide)).imp
    fun _ h => ⟨h.1, h.2.1⟩

/-- C15 at the failing input, a select width of 32: on `full_width_mux`
(shift 0, width 32, 200 parents, so `num_parents ≤ 255`) with the select
register holding 7, the field `(7 >> 0) mod 2 ^ 32` is 7, below
`num_parents`, but `mtk_mux_upd_get_parent` returns 0: `GENMASK(31, 0)` shifts
a 32-bit 1 by 32 and the mask comes out 0. -/
theorem get_parent_exact_full_width_example :
    (0 ≤ full_width_mux.mux_shift ∧ 1 ≤ full_width_mux.mux_width ∧
      full_width_mux.mux_shift + full_width_mux.mux_width ≤ 32 ∧
      full_width_mux.hw.num_parents ≤ 255) ∧
    (clk_readl (fun _ => 7) full_width_mux.mux_ofs >>> full_width_mux.mux_shift.toNat)
        % 2 ^ full_width_mux.mux_width.toNat = 7 ∧
    7 < full_width_mux.hw.num_parents ∧
    (mtk_mux_upd_get_parent full_width_mux (fun _ => 7)).map (fun p => p.ret) = some 0 := by
  decide

/-- The result of `mtk_mux_upd_get_parent` below the full width. On an
instance with `mux_shift ≥ 0`, `1 ≤ mux_width ≤ 31`,
`mux_shift + mux_width ≤ 32` and `num_parents ≤ 255`: when the select field
`(reg >> mux_shift) mod 2 ^ mux_width` is below `num_parents`,
`mtk_mux_upd_get_parent` returns exactly that value (the `u8` result loses
nothing), so the result of a successful call is below `num_parents`. -/
theorem get_parent_exact (mux : mtk_mux_upd_data) (regs : RegFile)
    (hshift : 0 ≤ mux.mux_shift) (hwidth : 1 ≤ mux.mux_width) (hw31 : mux.mux_width ≤ 31)
    (hfit : mux.mux_shift + mux.mux_width ≤ 32)
    (hnp : mux.hw.num_parents ≤ 255)
    (hlt : (clk_readl regs mux.mux_ofs >>> mux.mux_shift.toNat) % 2 ^ mux.mux_width.toNat
      < mux.hw.num_parents) :
    ∃ p, mtk_mux_upd_get_parent mux regs = some p ∧
      p.ret = (clk_readl regs mux.mux_ofs >>> mux.mux_shift.toNat) % 2 ^ mux.mux_width.toNat ∧
      p.ret < mux.hw.num_parents := by
  obtain ⟨s, hs⟩ := Int.eq_ofNat_of_zero_le hshift
  obtain ⟨w, hw⟩ := Int.eq_ofNat_of_zero_le (le_trans (by decide) hwidth)
  have hw31n : w ≤ 31 := by rw [hw] at hw31; omega
  have hs31 : s ≤ 31 := by rw [hs, hw] at hfit; rw [hw] at hwidth; omega
  rw [hs, hw] at hlt ⊢
  simp only [Int.toNat_ofNat] at hlt ⊢
  rw [get_parent_eq mux regs s w hs hw hs31 hw31n, Nat.and_pow_two_sub_one_eq_mod,
    if_neg (not_le.mpr hlt)]
  have h8 : (clk_readl regs mux.mux_ofs >>> s) % 2 ^ w % 2 ^ 8
      = (clk_readl regs mux.mux_ofs >>> s) % 2 ^ w := Nat.mod_eq_of_lt (by omega)
  refine ⟨_, rfl, h8, ?_⟩
  show (clk_readl regs mux.mux_ofs >>> s) % 2 ^ w % 2 ^ 8 < mux.hw.num_parents
  rw [h8]
  exact hlt

theorem get_parent_exact_witness :
    ∃ p, mtk_mux_upd_get_parent (scenario_mux 64 4) (fun _ => 6) = some p ∧
      p.ret = (clk_readl (fun _ => 6) 64 >>> (0 : Int).toNat) % 2 ^ (2 : Int).toNat ∧
      p.ret < (scenario_mux 64 4).hw.num_parents :=
  get_parent_exact (scenario_mux 64 4) (fun _ => 6)
    (by decide) (by decide) (by decide) (by decide) (by decide) (by decide)

/-- C16. The update register is written only after a select-register store:
for each of the five calls, on any instance and register content, the stores
of a call that has a result are none, or the select store alone, or the select
store immediately followed by the one update store, and the last case needs
`upd_shift > 0`, an update bit that is configured. Read by offsets, with the
update register at another offset than the select register: a store to the
update register in the trace means `upd_shift > 0` and the trace ends with
the select store and that update store; with the update bit absent
(`upd_shift < 0`) no call stores to the update register. -/
theorem update_store_follows_select_store (mux : mtk_mux_upd_data) (regs : RegFile)
    (c : mux_op) (r : RegFile) (t : List Access) (h : run_op mux regs c = some (r, t)) :
    (writes t = [] ∨ (∃ v, writes t = [(mux.mux_ofs, v)]) ∨
      (∃ v, 0 < mux.upd_shift ∧
        t = [Access.read mux.mux_ofs, Access.write mux.mux_ofs v,
             Access.write mux.upd_ofs (2 ^ mux.upd_shift.toNat % 2 ^ 32)])) ∧
    (mux.upd_ofs ≠ mux.mux_ofs → ∀ p, Access.write mux.upd_ofs p ∈ t →
      0 < mux.upd_shift ∧
      ∃ pre v, t = pre ++ [Access.write mux.mux_ofs v, Access.write mux.upd_ofs p]) ∧
    (mux.upd_ofs ≠ mux.mux_ofs → mux.upd_shift < 0 → ∀ p, Access.write mux.upd_ofs p ∉ t) := by
  have hne : ∀ v p, mux.upd_ofs ≠ mux.mux_ofs →
      Access.write mux.upd_ofs p ≠ Access.write mux.mux_ofs v := by
    intro v p hofs e
    exact hofs (Access.write.inj e).1
  rcases run_op_shape mux regs c r t h with
    ⟨ht, -⟩ | ⟨ht, -⟩ | ⟨v, ht, -, hu, -⟩ | ⟨v, ht, -, hu, -⟩
  · subst ht
    exact ⟨Or.inl rfl, fun _ p hp => by simp at hp, fun _ _ p hp => by simp at hp⟩
  · subst ht
    exact ⟨Or.inl rfl, fun _ p hp => by simp at hp, fun _ _ p hp => by simp at hp⟩
  · subst ht
    refine ⟨Or.inr (Or.inl ⟨_, rfl⟩), ?_, ?_⟩
    · intro hofs p hp
      simp only [List.mem_cons, List.mem_singleton, List.not_mem_nil, or_false] at hp
      rcases hp with hp | hp
      · exact Access.noConfusion hp
      · exact absurd hp (hne _ _ hofs)
    · intro hofs _ p hp
      simp only [List.mem_cons, List.mem_singleton, List.not_mem_nil, or_false] at hp
      rcases hp with hp | hp
      · exact Access.noConfusion hp
      · exact absurd hp (hne _ _ hofs)
  · subst ht
    refine ⟨Or.inr (Or.inr ⟨_, hu, rfl⟩), ?_, ?_⟩
    · intro hofs p hp
      simp only [List.mem_cons, List.mem_singleton, List.not_mem_nil, or_false] at hp
      rcases hp with hp | hp | hp
      · exact Access.noConfusion hp
      · exact absurd hp (hne _ _ hofs)
      · refine ⟨hu, [Access.read mux.mux_ofs], v % 2 ^ 32, ?_⟩
        rw [hp]
        rfl
    · intro _ hneg
      omega

theorem update_store_follows_select_store_witness :
    (writes [Access.read 64, Access.write 64 2, Access.write 4 8] = [] ∨
      (∃ v, writes [Access.read 64, Access.write 64 2, Access.write 4 8] = [(64, v)]) ∨
      (∃ v, 0 < (3 : Int) ∧
        [Access.read 64, Access.write 64 2, Access.write 4 8] =
          [Access.read 64, Access.write 64 v, Access.write 4 (2 ^ (3 : Int).toNat % 2 ^ 32)])) :=
  (update_store_follows_select_store { scenario_mux 64 4 with upd_shift := 3 } (fun _ => 0)
      (mux_op.set_parent 2) (clk_writel 8 4 (clk_writel 2 64 (fun _ => 0)))
      [Access.read 64, Access.write 64 2, Access.write 4 8] rfl).1

/-- C17. Confinement: for each of the five calls, on any instance and
register content, a call that has a result loads only from `mux_ofs` and
stores only to `mux_ofs` and `upd_ofs`; every cell at another offset holds
after the call what it held before; `is_enabled` and `get_parent` store
nothing and leave the whole region as it was. -/
theorem accesses_confined (mux : mtk_mux_upd_data) (regs : RegFile)
    (c : mux_op) (r : RegFile) (t : List Access) (h : run_op mux regs c = some (r, t)) :
    (∀ a ∈ t, a = Access.read mux.mux_ofs ∨ (∃ v, a = Access.write mux.mux_ofs v) ∨
      (∃ v, a = Access.write mux.upd_ofs v)) ∧
    (∀ ofs, ofs ≠ mux.mux_ofs → ofs ≠ mux.upd_ofs → r ofs = regs ofs) ∧
    (c = mux_op.is_enabled ∨ c = mux_op.get_parent → writes t = [] ∧ r = regs) := by
  rcases run_op_shape mux regs c r t h with
    ⟨ht, hr, -⟩ | ⟨ht, hr⟩ | ⟨v, ht, hr, -, hc1, hc2⟩ | ⟨v, ht, hr, -, hc1, hc2⟩
  · subst ht hr
    exact ⟨fun a ha => by simp at ha, fun _ _ _ => rfl, fun _ => ⟨rfl, rfl⟩⟩
  · subst ht hr
    refine ⟨fun a ha => ?_, fun _ _ _ => rfl, fun _ => ⟨rfl, rfl⟩⟩
    simp only [List.mem_singleton] at ha
    exact Or.inl ha
  · subst ht hr
    refine ⟨fun a ha => ?_, fun ofs h1 _ => clk_writel_other _ _ _ _ h1, fun hc => ?_⟩
    · simp only [List.mem_cons, List.mem_singleton, List.not_mem_nil, or_false] at ha
      rcases ha with ha | ha
      · exact Or.inl ha
      · exact Or.inr (Or.inl ⟨_, ha⟩)
    · rcases hc with hc | hc
      · exact absurd hc hc1
      · exact absurd hc hc2
  · subst ht hr
    refine ⟨fun a ha => ?_, fun ofs h1 h2 => ?_, fun hc => ?_⟩
    · simp only [List.mem_cons, List.mem_singleton, List.not_mem_nil, or_false] at ha
      rcases ha with ha | ha | ha
      · exact Or.inl ha
      · exact Or.inr (Or.inl ⟨_, ha⟩)
      · exact Or.inr (Or.inr ⟨_, ha⟩)
    · rw [clk_writel_other _ _ _ _ h2, clk_writel_other _ _ _ _ h1]
    · rcases hc with hc | hc
      · exact absurd hc hc1
      · exact absurd hc hc2

theorem accesses_confined_witness :
    (∀ a ∈ [Access.read 64, Access.write 64 2, Access.write 4 8],
      a = Access.read 64 ∨ (∃ v, a = Access.write 64 v) ∨ (∃ v, a = Access.write 4 v)) ∧
    (∀ ofs, ofs ≠ 64 → ofs ≠ 4 →
      clk_writel 8 4 (clk_writel 2 64 (fun _ => 0)) ofs = (fun _ => 0) ofs) :=
  ⟨(accesses_confined { scenario_mux 64 4 with upd_shift := 3 } (fun _ => 0)
      (mux_op.set_parent 2) (clk_writel 8 4 (clk_writel 2 64 (fun _ => 0)))
      [Access.read 64, Access.write 64 2, Access.write 4 8] rfl).1,
   (accesses_confined { scenario_mux 64 4 with upd_shift := 3 } (fun _ => 0)
      (mux_op.set_parent 2) (clk_writel 8 4 (clk_writel 2 64 (fun _ => 0)))
      [Access.read 64, Access.write 64 2, Access.write 4 8] rfl).2.1⟩

/-- C18, as stated, fails at both ends: `is_enabled` on an instance without a
gate (`wide_mux`) issues no access at all, and `set_parent` that changes the
field on an instance with `upd_shift = 3` issues three (the load, the select
store, the update store). -/
theorem access_count_example :
    (run_op wide_mux (fun _ => 0) mux_op.is_enabled).map (fun x => x.2) = some [] ∧
    (run_op { scenario_mux 64 4 with upd_shift := 3 } (fun _ => 0) (mux_op.set_parent 2)).map
        (fun x => x.2)
      = some [Access.read 64, Access.write 64 2, Access.write 4 8] := by
  decide

/-- C18, amended. A call that has a result issues at most three accesses.
`get_parent` issues exactly one (the load); `is_enabled` none without a gate
bit and one with a gate bit. `enable`, `disable` and `set_parent` issue one
access, the load, when the value they compute equals the value read; when it
differs they issue two (load and select store) if no update bit is configured
(`upd_shift < 0`) and three (load, select store, update store) if the update
bit is at position 1 or higher (`upd_shift > 0`). The value computed is
`old & ~BIT(gate_shift)` for enable, `old | BIT(gate_shift)` for disable and
`(old & ~(mask << shift)) | (index << shift)` for `set_parent`, with the bit,
mask and shifts as the functions themselves evaluate them. -/
theorem access_count (mux : mtk_mux_upd_data) (regs : RegFile)
    (c : mux_op) (r : RegFile) (t : List Access) (h : run_op mux regs c = some (r, t)) :
    t.length ≤ 3 ∧
    (c = mux_op.get_parent → t.length = 1) ∧
    (c = mux_op.is_enabled → (mux.gate_shift < 0 → t.length = 0) ∧
      (0 ≤ mux.gate_shift → t.length = 1)) ∧
    (c = mux_op.enable → ∀ gate, BIT mux.gate_shift = some gate →
      (clk_readl regs mux.mux_ofs &&& not32 gate = clk_readl regs mux.mux_ofs →
        t.length = 1) ∧
      (clk_readl regs mux.mux_ofs &&& not32 gate ≠ clk_readl regs mux.mux_ofs →
        (mux.upd_shift < 0 → t.length = 2) ∧ (0 < mux.upd_shift → t.length = 3))) ∧
    (c = mux_op.disable → ∀ gate, BIT mux.gate_shift = some gate →
      ((clk_readl regs mux.mux_ofs ||| gate) % 2 ^ 32 = clk_readl regs mux.mux_ofs →
        t.length = 1) ∧
      ((clk_readl regs mux.mux_ofs ||| gate) % 2 ^ 32 ≠ clk_readl regs mux.mux_ofs →
        (mux.upd_shift < 0 → t.length = 2) ∧ (0 < mux.upd_shift → t.length = 3))) ∧
    (∀ index mask field placed, c = mux_op.set_parent index →
      GENMASK (mux.mux_width - 1) 0 = some mask →
      shl32 mask mux.mux_shift = some field →
      shl32 index.val mux.mux_shift = some placed →
      ((clk_readl regs mux.mux_ofs &&& not32 field) ||| placed = clk_readl regs mux.mux_ofs →
        t.length = 1) ∧
      ((clk_readl regs mux.mux_ofs &&& not32 field) ||| placed ≠ clk_readl regs mux.mux_ofs →
        (mux.upd_shift < 0 → t.length = 2) ∧ (0 < mux.upd_shift → t.length = 3))) := by
  have hlen : t.length ≤ 3 := by
    rcases run_op_shape mux regs c r t h with
      ⟨ht, -⟩ | ⟨ht, -⟩ | ⟨v, ht, -⟩ | ⟨v, ht, -⟩
    · subst ht; exact Nat.zero_le _
    · subst ht; simp
    · subst ht; simp
    · subst ht; simp
  have hget : c = mux_op.get_parent → t.length = 1 := by
    intro hc
    subst hc
    obtain ⟨o, ho, he⟩ := Option.map_eq_some'.mp h
    have e2 : o.trace = t := congrArg Prod.snd he
    rw [← e2, (get_parent_some mux regs o ho).2]
    rfl
  have hen : c = mux_op.is_enabled → (mux.gate_shift < 0 → t.length = 0) ∧
      (0 ≤ mux.gate_shift → t.length = 1) := by
    intro hc
    subst hc
    obtain ⟨o, ho, he⟩ := Option.map_eq_some'.mp h
    have e2 : o.trace = t := congrArg Prod.snd he
    rcases (is_enabled_some mux regs o ho).2 with ⟨hg, ht⟩ | ⟨hg, ht⟩
    · rw [← e2, ht]
      exact ⟨fun _ => rfl, fun h0 => absurd hg (not_lt.mpr h0)⟩
    · rw [← e2, ht]
      exact ⟨fun hn => absurd hg (not_le.mpr hn), fun _ => rfl⟩
  -- one load, then the stores of the closing block
  have hrule : ∀ (val : Nat) (r0 : RegFile) (t0 : List Access),
      write_back mux regs (clk_readl regs mux.mux_ofs) val = some (r0, t0) →
      t = Access.read mux.mux_ofs :: t0 →
      (val = clk_readl regs mux.mux_ofs → t.length = 1) ∧
      (val ≠ clk_readl regs mux.mux_ofs →
        (mux.upd_shift < 0 → t.length = 2) ∧ (0 < mux.upd_shift → t.length = 3)) := by
    intro val r0 t0 hwb ht
    obtain ⟨h0, h1⟩ := write_back_length mux regs _ val r0 t0 hwb
    subst ht
    refine ⟨fun hv => ?_, fun hv => ⟨fun hu => ?_, fun hu => ?_⟩⟩
    · rw [List.length_cons, h0 hv]
    · rw [List.length_cons, (h1 hv).1 hu]
    · rw [List.length_cons, (h1 hv).2 hu]
  refine ⟨hlen, hget, hen, ?_, ?_, ?_⟩
  · intro hc gate hB
    subst hc
    obtain ⟨o, ho, he⟩ := Option.map_eq_some'.mp h
    have e2 : o.trace = t := congrArg Prod.snd he
    obtain ⟨t0, hwb, htr⟩ := enable_trace mux regs gate hB o ho
    exact hrule _ o.regs t0 hwb (by rw [← e2, htr])
  · intro hc gate hB
    subst hc
    obtain ⟨o, ho, he⟩ := Option.map_eq_some'.mp h
    have e2 : o.trace = t := congrArg Prod.snd he
    obtain ⟨t0, hwb, htr⟩ := disable_trace mux regs gate hB o ho
    exact hrule _ o.regs t0 hwb (by rw [← e2, htr])
  · intro index mask field placed hc hmask hfield hplaced
    subst hc
    obtain ⟨o, ho, he⟩ := Option.map_eq_some'.mp h
    have e2 : o.trace = t := congrArg Prod.snd he
    obtain ⟨t0, hwb, htr⟩ := set_parent_trace mux index regs mask field placed
      hmask hfield hplaced o ho
    exact hrule _ o.regs t0 hwb (by rw [← e2, htr])

theorem access_count_witness :
    [Access.read 64, Access.write 64 2, Access.write 4 8].length = 3 :=
  (((access_count { scenario_mux 64 4 with upd_shift := 3 } (fun _ => 0)
      (mux_op.set_parent 2) (clk_writel 8 4 (clk_writel 2 64 (fun _ => 0)))
      [Access.read 64, Access.write 64 2, Access.write 4 8] rfl).2.2.2.2.2
        2 3 3 2 rfl (by decide) (by decide) (by decide)).2 (by decide)).2 (by decide)

/-- C19. Safety of the gate shift: a clock that `mtk_clk_register_mux_upd`
registers has `enable` in its table exactly when the entry's `gate_shift` is
non-negative, and likewise `disable`; the instance record keeps the entry's
`gate_shift`. Hence whenever the table offers `enable` or `disable`, the
function is `mtk_mux_upd_enable` (or `mtk_mux_upd_disable`), the instance has
`gate_shift ≥ 0`, and the call on the instance has a result for every register
content: the shift `BIT(gate_shift)` by a negative count is never reached. -/
theorem registered_gate_ops (mu : mtk_mux_upd) (kzalloc_ok : Bool)
    (clk_register_err : Option Int) (c : clk)
    (h : mtk_clk_register_mux_upd mu kzalloc_ok clk_register_err = Except.ok c) :
    (c.ops.enable.isSome = true ↔ 0 ≤ mu.gate_shift) ∧
    (c.ops.disable.isSome = true ↔ 0 ≤ mu.gate_shift) ∧
    c.data.gate_shift = mu.gate_shift ∧
    (∀ f, c.ops.enable = some f →
      f = mtk_mux_upd_enable ∧ 0 ≤ c.data.gate_shift ∧
      ∀ regs : RegFile, ∃ o, f c.data regs = some o) ∧
    (∀ f, c.ops.disable = some f →
      f = mtk_mux_upd_disable ∧ 0 ≤ c.data.gate_shift ∧
      ∀ regs : RegFile, ∃ o, f c.data regs = some o) := by
  unfold mtk_clk_register_mux_upd at h
  cases kzalloc_ok with
  | false => exact Except.noConfusion h
  | true =>
    cases clk_register_err with
    | some e => exact Except.noConfusion h
    | none =>
      have hc := Except.ok.inj h
      subst hc
      by_cases hg : mu.gate_shift < 0
      · simp only [if_pos hg]
        refine ⟨?_, ?_, trivial, ?_, ?_⟩
        · exact ⟨fun h1 => Bool.noConfusion h1, fun h1 => absurd hg (not_lt.mpr h1)⟩
        · exact ⟨fun h1 => Bool.noConfusion h1, fun h1 => absurd hg (not_lt.mpr h1)⟩
        · intro f hf
          exact Option.noConfusion hf
        · intro f hf
          exact Option.noConfusion hf
      · have hg0 : 0 ≤ mu.gate_shift := not_lt.mp hg
        simp only [if_neg hg]
        refine ⟨⟨fun _ => hg0, fun _ => rfl⟩, ⟨fun _ => hg0, fun _ => rfl⟩, trivial, ?_, ?_⟩
        · intro f hf
          have e : mtk_mux_upd_enable = f := Option.some.inj hf
          subst e
          exact ⟨rfl, hg0, fun regs => (enable_defined _ regs hg0).imp fun _ ho => ho.1⟩
        · intro f hf
          have e : mtk_mux_upd_disable = f := Option.some.inj hf
          subst e
          exact ⟨rfl, hg0, fun regs => disable_defined _ regs hg0⟩

theorem registered_gate_ops_witness :
    ((mtk_mux_upd_gate_ops.enable.isSome = true ↔ 0 ≤ (2 : Int)) ∧
      (mtk_mux_upd_gate_ops.disable.isSome = true ↔ 0 ≤ (2 : Int))) ∧
    ((mtk_mux_upd_ops.enable.isSome = true ↔ 0 ≤ (-1 : Int)) ∧
      (mtk_mux_upd_ops.disable.isSome = true ↔ 0 ≤ (-1 : Int))) :=
  ⟨⟨(registered_gate_ops
        { id := 1, num_parents := 3, mux_ofs := 64, upd_ofs := 4, mux_shift := 0,
          mux_width := 2, gate_shift := 2, upd_shift := 3 } true none
        { ops := mtk_mux_upd_gate_ops, data := { scenario_mux 64 4 with upd_shift := 3 } }
        rfl).1,
      (registered_gate_ops
        { id := 1, num_parents := 3, mux_ofs := 64, upd_ofs := 4, mux_shift := 0,
          mux_width := 2, gate_shift := 2, upd_shift := 3 } true none
        { ops := mtk_mux_upd_gate_ops, data := { scenario_mux 64 4 with upd_shift := 3 } }
        rfl).2.1⟩,
   ⟨(registered_gate_ops
        { id := 2, num_parents := 3, mux_ofs := 64, upd_ofs := 4, mux_shift := 0,
          mux_width := 2, gate_shift := -1, upd_shift := 3 } true none
        { ops := mtk_mux_upd_ops,
          data := { scenario_mux 64 4 with gate_shift := -1, upd_shift := 3 } }
        rfl).1,
      (registered_gate_ops
        { id := 2, num_parents := 3, mux_ofs := 64, upd_ofs := 4, mux_shift := 0,
          mux_width := 2, gate_shift := -1, upd_shift := 3 } true none
        { ops := mtk_mux_upd_ops,
          data := { scenario_mux 64 4 with gate_shift := -1, upd_shift := 3 } }
        rfl).2.1⟩⟩

/-- C20. Numeric value of the error result: whenever the mask and the shift of
`mtk_mux_upd_get_parent` have a value and the select field read is at or above
`num_parents`, the function returns, after its one load, the `u8` value of
`-EINVAL`, which is `(-22) mod 2 ^ 8 = 234`; this value is at or above
`num_parents` exactly when `num_parents ≤ 234`. -/
theorem get_parent_error_value (mux : mtk_mux_upd_data) (regs : RegFile) (mask shifted : Nat)
    (hmask : GENMASK (mux.mux_width - 1) 0 = some mask)
    (hshr : shr32 (clk_readl regs mux.mux_ofs) mux.mux_shift = some shifted)
    (hge : mux.hw.num_parents ≤ shifted &&& mask) :
    mtk_mux_upd_get_parent mux regs =
      some { ret := toU8 (-EINVAL), regs := regs, trace := [Access.read mux.mux_ofs] } ∧
    -EINVAL = -22 ∧ (-22 : Int) % 2 ^ 8 = 234 ∧ toU8 (-EINVAL) = 234 ∧
    (mux.hw.num_parents ≤ toU8 (-EINVAL) ↔ mux.hw.num_parents ≤ 234) := by
  refine ⟨?_, by decide, by decide, toU8_neg_EINVAL, by rw [toU8_neg_EINVAL]⟩
  unfold mtk_mux_upd_get_parent
  rw [hmask, hshr]
  simp only [Option.bind_eq_bind, Option.some_bind]
  rw [if_pos hge]
  rfl

theorem get_parent_error_value_witness :
    mtk_mux_upd_get_parent wide_mux (fun _ => 240) =
      some { ret := toU8 (-EINVAL), regs := fun _ => 240, trace := [Access.read 64] } :=
  (get_parent_error_value wide_mux (fun _ => 240) 255 240 (by decide) (by decide)
    (by decide)).1

end ClkMux
